import Mathlib

/-!
Shallow embedding of the audio core of `rust-oids`
(`src/frontend/audio/multiplexer.rs`): waveform / envelope / oscillator
synthesis, the `SignalBuilder` pipeline, the ping-pong `Delay` transform, and
the `Multiplexer` voice pool with its `trigger` / `audio_requested` loop.

Modelling conventions:
* `f32` / `f64` samples and times are modelled as exact rationals; decimal
  literals are modelled by the decimal rationals they denote (every rounding
  decided below lands strictly inside an integer neighbourhood, where the
  float representation error cannot change the rounded result).
* machine-size indices (`usize`) are `ℕ`;
* the transcendental float routines (`sin`, `cos`, note-to-Hz) are parameters
  of the embedding (`AudioEnv`): no claim depends on their values;
* Rust code that can panic is embedded as an `Option`-valued function
  (`Signal.with_delay`, whose `i % delay_length` panics for a zero remainder
  divisor with a nonempty output).
-/

namespace RustOids

/-- One stereo frame (`[f32; CHANNELS]` with `CHANNELS = 2` — the source
indexes both channels of the default frame and swaps `CHANNELS - 1 - channel`,
a two-channel layout). -/
abbrev Frame : Type := ℚ × ℚ

/-- Rust `f32::signum` as it is reached from `Waveform::Square`: the argument
is a difference `phase - duty_cycle` of finite floats, for which IEEE-754
subtraction of equal values yields `+0.0`, and `f32::signum (+0.0) = 1.0`;
so the embedded sign of the (exact) difference is `1` whenever the difference
is not negative. -/
def rustSignum (x : ℚ) : ℚ := if x < 0 then -1 else 1

/-- Clamped linear interpolation, `lerp_clip` in the source:
`y0 + (y1 - y0) * max 0 (min 1 ((t - x0) / (x1 - x0)))`.  Division is rational
division; the division by zero that Rust would turn into a `NaN` is never
reached by the callers proved below (`x0 < x1` holds on every taken branch). -/
def lerp_clip (x0 x1 y0 y1 t : ℚ) : ℚ :=
  y0 + (y1 - y0) * max 0 (min 1 ((t - x0) / (x1 - x0)))

/-- Modelled from the spec: the transcendental float routines behind the
source (`f32::sin` / `f32::cos` applied to `2π·x` in `Waveform::sample`, and
`pitch_calc`'s `LetterOctave::hz` note-to-frequency conversion, both defined
outside the embedded core) are irrational-valued and live outside the
rational fragment; no claim depends on their values, so they are unconstrained
parameters.  `sin2pi x` stands for the float computation of `sin (2π x)`,
`cos2pi x` for `cos (2π x)`, and the `hz…` fields for the pitches of the
seven catalog notes. -/
structure AudioEnv : Type where
  sin2pi : ℚ → ℚ
  cos2pi : ℚ → ℚ
  hzA3 : ℚ
  hzG5 : ℚ
  hzC6 : ℚ
  hzC4 : ℚ
  hzF5 : ℚ
  hzA4 : ℚ
  hzEb3 : ℚ

/-- The `Waveform<T, S>` variant set. -/
inductive Waveform : Type
  | sin : Waveform
  | triangle (slant : ℚ) : Waveform
  | harmonics (hcos hsin : List ℚ) : Waveform
  | square (duty_cycle : ℚ) : Waveform
  | silence : Waveform

/-- The harmonic fold of `Waveform::sample`: enumerate the coefficients and sum
`coeffs[i] * g ((i+1) · phase)` (the source multiplies `phi = 2π·phase` by
`i + 1` before applying `cos` / `sin`). -/
def harmonicFold (g : ℚ → ℚ) (coeffs : List ℚ) (phase : ℚ) : ℚ :=
  (List.zipWith (fun i f => f * g (phase * (i + 1)))
    (List.range coeffs.length) coeffs).foldl (· + ·) 0

/-- `Waveform::sample` (phase pre-normalised by the caller). -/
def Waveform.sample (env : AudioEnv) (w : Waveform) (phase : ℚ) : ℚ :=
  match w with
  | .sin => env.sin2pi phase
  | .harmonics hcos hsin =>
      harmonicFold env.cos2pi hcos phase + harmonicFold env.sin2pi hsin phase
  | .triangle slant =>
      if phase < slant then lerp_clip 0 slant (-1) 1 phase
      else lerp_clip slant 1 1 (-1) phase
  | .square duty_cycle => rustSignum (phase - duty_cycle)
  | .silence => 0

/-- `Envelope<T, S>`. -/
structure Envelope : Type where
  attack : ℚ
  decay : ℚ
  sustain : ℚ
  release : ℚ
  deriving DecidableEq

/-- `Envelope::default()`. -/
def Envelope.dflt : Envelope := ⟨0, 0, 1, 0⟩

/-- `Envelope::adsr`. -/
def Envelope.adsr (attack decay sustain release : ℚ) : Envelope :=
  ⟨attack, decay, sustain, release⟩

/-- `Envelope::ramp_down`. -/
def Envelope.ramp_down (duration : ℚ) : Envelope :=
  { Envelope.dflt with release := duration }

/-- `Envelope::gain`, branch for branch.  Note the second branch is guarded by
`t < decay` but interpolates over `[attack, attack + decay]`. -/
def Envelope.gain (e : Envelope) (duration t : ℚ) : ℚ :=
  if t < e.attack then lerp_clip 0 e.attack 0 1 t
  else if t < e.decay then lerp_clip e.attack (e.attack + e.decay) 1 e.sustain t
  else if t < duration - e.release then e.sustain
  else if t < duration then lerp_clip (duration - e.release) duration e.sustain 0 t
  else 0

/-- `Tone<T, S>` (the `Seconds` newtype is a plain number). -/
structure Tone : Type where
  pitch : ℚ
  duration : ℚ
  amplitude : ℚ

/-- `Oscillator<T, S>`. -/
structure Oscillator : Type where
  tone : Tone
  waveform : Waveform

/-- Rust `f32::fract`: `x - x.trunc()`, truncation toward zero. -/
def rustFract (x : ℚ) : ℚ := x - (if x < 0 then (⌈x⌉ : ℚ) else (⌊x⌋ : ℚ))

/-- `Oscillator::sample`. -/
def Oscillator.sample (env : AudioEnv) (o : Oscillator) (t : ℚ) : ℚ :=
  o.tone.amplitude * o.waveform.sample env (rustFract (t * o.tone.pitch))

/-- `Oscillator::duration`. -/
def Oscillator.duration (o : Oscillator) : ℚ := o.tone.duration

/-- `Oscillator::sin` (pitch already converted to Hz). -/
def Oscillator.sin (pitch duration amplitude : ℚ) : Oscillator :=
  ⟨⟨pitch, duration, amplitude⟩, Waveform.sin⟩

/-- `Oscillator::pwm`. -/
def Oscillator.pwm (pitch duration amplitude duty_cycle : ℚ) : Oscillator :=
  ⟨⟨pitch, duration, amplitude⟩, Waveform.square duty_cycle⟩

/-- `Oscillator::square` = `pwm` with duty cycle 0.5. -/
def Oscillator.square (pitch duration amplitude : ℚ) : Oscillator :=
  Oscillator.pwm pitch duration amplitude (1/2)

/-- `Oscillator::harmonics`. -/
def Oscillator.harmonics (pitch duration amplitude : ℚ) (hcos hsin : List ℚ) : Oscillator :=
  ⟨⟨pitch, duration, amplitude⟩, Waveform.harmonics hcos hsin⟩

/-- `Oscillator::signal_function`: sample × envelope gain, panned onto the two
channels with weights `[1 - pan, pan]`. -/
def Oscillator.signal_function (env : AudioEnv) (o : Oscillator) (pan : ℚ) (e : Envelope) :
    ℚ → Frame :=
  fun t =>
    let val := o.sample env t * e.gain o.duration t
    (val * (1 - pan), val * pan)

/-- `Signal<S, F>` for stereo frames. -/
structure Signal : Type where
  sample_rate : ℚ
  frames : List Frame
  deriving DecidableEq

/-- Default used for out-of-range wavetable lookups (never reached under the
pool invariant `Multiplexer.WF`). -/
def Signal.empty : Signal := ⟨0, []⟩

/-- Rust `(x).round() as usize`: round half away from zero, then saturate
negatives to 0.  For `q + 1/2 ≥ 0` this is `⌊q + 1/2⌋`; for `q + 1/2 < 0` the
numerator is negative and `Int.toNat` saturates to 0, exactly as the `as usize`
cast does on the (negative) rounded float. -/
def roundUsize (q : ℚ) : ℕ := (q + 1/2).num.toNat / (q + 1/2).den

/-- `Signal::new`: `round(duration × sample_rate)` frames, frame `i` sampled at
`t = i / sample_rate`. -/
def Signal.new (sample_rate duration : ℚ) (f : ℚ → Frame) : Signal :=
  ⟨sample_rate,
    (List.range (roundUsize (duration * sample_rate))).map fun i : ℕ =>
      f ((i : ℚ) / sample_rate)⟩

/-- Loop body of `Signal::with_delay`, recursing on the remaining iteration
count with `i` the current output index and `buf` the circular delay buffer:
`wet = wet_dry·src + buf[i % dl]`, output `(1 - wet_dry)·src + wet`, write-back
`feedback × wet` with the channels swapped (ping-pong). -/
def delayLoop (src : List Frame) (wet_dry feedback : ℚ) (dl : ℕ) :
    ℕ → ℕ → List Frame → List Frame
  | 0, _, _ => []
  | fuel + 1, i, buf =>
    let s := src.getD i 0
    let d := buf.getD (i % dl) 0
    let wet : Frame := (wet_dry * s.1 + d.1, wet_dry * s.2 + d.2)
    ((1 - wet_dry) * s.1 + wet.1, (1 - wet_dry) * s.2 + wet.2)
      :: delayLoop src wet_dry feedback dl fuel (i + 1)
          (buf.set (i % dl) (feedback * wet.2, feedback * wet.1))

/-- `Signal::with_delay`.  `delay_length = round(time × sample_rate)` frames of
circular buffer, output length `source_length + round(tail × sample_rate)`.
When `delay_length = 0` and the output is nonempty, the source evaluates
`i % delay_length`, an unsigned remainder by zero, which panics in Rust; the
embedding returns `none` exactly there. -/
def Signal.with_delay (sig : Signal) (time tail wet_dry feedback : ℚ) : Option Signal :=
  let dl := roundUsize (time * sig.sample_rate)
  let dest := sig.frames.length + roundUsize (tail * sig.sample_rate)
  if dl = 0 ∧ dest ≠ 0 then none
  else some ⟨sig.sample_rate, delayLoop sig.frames wet_dry feedback dl dest 0 (List.replicate dl 0)⟩

/-- `Delay<S>`. -/
structure Delay : Type where
  time : ℚ
  tail : ℚ
  wet_dry : ℚ
  feedback : ℚ

/-- `Delay::default()`: 0.25 s delay, 1 s tail, fully wet, feedback 0.5. -/
def Delay.dflt : Delay := ⟨1/4, 1, 1, 1/2⟩

/-- `SignalBuilder<T, S>` (an immutable configuration value). -/
structure SignalBuilder : Type where
  oscillator : Oscillator
  envelope : Envelope
  pan : ℚ
  sample_rate : ℚ
  delay : Delay

/-- `SignalBuilder::from_oscillator`: ramp-down envelope over the oscillator's
duration, builder sample rate hardcoded to 48000, centre pan, delay time =
duration with a 4×-duration tail. -/
def SignalBuilder.from_oscillator (o : Oscillator) : SignalBuilder :=
  { oscillator := o
    envelope := Envelope.ramp_down o.tone.duration
    sample_rate := 48000
    pan := 1/2
    delay := { Delay.dflt with time := o.tone.duration, tail := o.tone.duration * 4 } }

/-- `SignalBuilder::with_envelope` (returns a new configuration). -/
def SignalBuilder.with_envelope (b : SignalBuilder) (e : Envelope) : SignalBuilder :=
  { b with envelope := e }

/-- `SignalBuilder::with_pan`. -/
def SignalBuilder.with_pan (b : SignalBuilder) (pan : ℚ) : SignalBuilder :=
  { b with pan := pan }

/-- `SignalBuilder::with_delay`. -/
def SignalBuilder.with_delay (b : SignalBuilder) (d : Delay) : SignalBuilder :=
  { b with delay := d }

/-- `SignalBuilder::with_delay_time`: keeps the other delay parameters, tail =
8 × time. -/
def SignalBuilder.with_delay_time (b : SignalBuilder) (time : ℚ) : SignalBuilder :=
  b.with_delay { b.delay with time := time, tail := time * 8 }

/-- `SignalBuilder::build`: render the oscillator/envelope/pan into a `Signal`,
then apply the configured delay. -/
def SignalBuilder.build (env : AudioEnv) (b : SignalBuilder) : Option Signal :=
  (Signal.new b.sample_rate b.oscillator.tone.duration
      (b.oscillator.signal_function env b.pan b.envelope)).with_delay
    b.delay.time b.delay.tail b.delay.wet_dry b.delay.feedback

/-- Modelled from the spec: the effect identifier set (`SoundEffect`, defined
outside the embedded core) is an opaque enumerable key type; the constructors
the catalog maps are included, `click` keeping its numeric payload (only
`Click(1)` is mapped, so e.g. `click 2` is an unmapped identifier). -/
inductive SoundEffect : Type
  | startup
  | click (n : ℕ)
  | userOption
  | fertilised
  | newSpore
  | newMinion
  | dieMinion
  deriving DecidableEq

/-- The wavetable built by `Multiplexer::new`: the seven `record` calls push
the seven built catalog signals in insertion order.  Every catalog delay
length is positive, so `build` never takes the `none` branch here
(`catalogTable_length` below); the `getD` default is unreachable. -/
def catalogTable (env : AudioEnv) : List Signal :=
  [ (((((SignalBuilder.from_oscillator
        (Oscillator.harmonics env.hzA3 2 (3/10) [0, 1/10, 0, 1/5] [3/5])).with_envelope
        (Envelope.adsr (1/100) (1/2) (1/2) (1/2))).with_pan (1/4)).with_delay_time 1).build
        env).getD Signal.empty
  , ((((SignalBuilder.from_oscillator
        (Oscillator.square env.hzG5 (1/10) (1/10))).with_pan (4/5)).with_delay_time
        (1/4)).build env).getD Signal.empty
  , ((((SignalBuilder.from_oscillator
        (Oscillator.square env.hzC6 (1/10) (1/10))).with_pan (3/5)).with_delay_time
        (1/4)).build env).getD Signal.empty
  , ((((SignalBuilder.from_oscillator
        (Oscillator.sin env.hzC4 (3/10) (1/10))).with_pan (3/5)).with_delay_time
        (1/4)).build env).getD Signal.empty
  , ((((SignalBuilder.from_oscillator
        (Oscillator.harmonics env.hzF5 (3/10) (1/10) [0, 3/10, 0, 1/10] [3/5])).with_pan
        (3/10)).with_delay_time (33/100)).build env).getD Signal.empty
  , ((((SignalBuilder.from_oscillator
        (Oscillator.sin env.hzA4 (1/2) (1/10))).with_pan (11/20)).with_delay_time
        (1/4)).build env).getD Signal.empty
  , ((((SignalBuilder.from_oscillator
        (Oscillator.sin env.hzEb3 1 (1/5))).with_pan 1).with_delay_time (1/2)).build
        env).getD Signal.empty ]

/-- The `sample_map` built by `Multiplexer::new`: each effect is inserted with
the index `record` returned for its builder. -/
def catalogMap : SoundEffect → Option ℕ
  | .startup => some 0
  | .click 1 => some 1
  | .click _ => none
  | .userOption => some 2
  | .fertilised => some 3
  | .newSpore => some 4
  | .newMinion => some 5
  | .dieMinion => some 6

/-- `Voice`. -/
structure Voice : Type where
  signal : Option ℕ
  length : ℕ
  position : ℕ
  deriving DecidableEq

/-- `Voice::default()`. -/
def Voice.dflt : Voice := ⟨none, 0, 0⟩

/-- `Voice::new`. -/
def Voice.new (signal_index length : ℕ) : Voice := ⟨some signal_index, length, 0⟩

/-- `Voice::remaining`. -/
def Voice.remaining (v : Voice) : ℕ := v.length - v.position

/-- `Voice::advance`: clamp the position to `length` and report end-of-signal
(`position >= length`). -/
def Voice.advance (v : Voice) (l : ℕ) : Voice × Bool :=
  let p := min v.length (v.position + l)
  ({ v with position := p }, decide (v.length ≤ p))

/-- `Multiplexer`.  `playing` models the `BitSet` (iterated in ascending index
order); `available` models the `Vec` free stack with its TOP FIRST (Rust's
`Vec` pushes and pops at the back, so Rust's `[a₀, …, a_k]` is this list
reversed). -/
structure Multiplexer : Type where
  sample_rate : ℚ
  wave_table : List Signal
  sample_map : SoundEffect → Option ℕ
  voices : List Voice
  playing : Finset ℕ
  available : List ℕ

/-- `Multiplexer::free_voice`: clear the signal reference, drop the index from
the playing set, push it on the free stack. -/
def Multiplexer.free_voice (m : Multiplexer) (i : ℕ) : Multiplexer :=
  { m with
    voices := m.voices.set i { m.voices.getD i Voice.dflt with signal := none }
    playing := m.playing.erase i
    available := i :: m.available }

/-- `Multiplexer::allocate_voice`: pop the free stack; on success install the
voice and mark the slot playing.  Also returns the allocated index. -/
def Multiplexer.allocate_voice (m : Multiplexer) (v : Voice) : Multiplexer × Option ℕ :=
  match m.available with
  | [] => (m, none)
  | i :: rest =>
    ({ m with playing := insert i m.playing, voices := m.voices.set i v, available := rest },
      some i)

/-- `Multiplexer::trigger`: unmapped effects are ignored; otherwise allocate a
voice at position 0 whose length is the mapped wavetable signal's length. -/
def Multiplexer.trigger (m : Multiplexer) (effect : SoundEffect) : Multiplexer :=
  match m.sample_map effect with
  | none => m
  | some signal_index =>
    (m.allocate_voice
      (Voice.new signal_index ((m.wave_table.getD signal_index Signal.empty).frames.length))).1

/-- Inner accumulation of `audio_requested`: add `sig[pos + idx]` into
`buffer[idx]` for `idx < len`, both channels at once. -/
def addRange (buf sig : List Frame) (pos len : ℕ) : List Frame :=
  List.zipWith (fun i b => if i < len then b + sig.getD (pos + i) 0 else b)
    (List.range buf.length) buf

/-- The sweep of `audio_requested` over the playing indices (ascending),
carrying the output buffer, the voice array and the set of voices that hit
end-of-signal. -/
def mixLoop (wt : List Signal) (n : ℕ) :
    List ℕ → List Frame → List Voice → Finset ℕ → List Frame × List Voice × Finset ℕ
  | [], buf, vs, term => (buf, vs, term)
  | i :: rest, buf, vs, term =>
    let voice := vs.getD i Voice.dflt
    match voice.signal with
    | none => mixLoop wt n rest buf vs term
    | some signal_index =>
      let len := min n voice.remaining
      let buf' := addRange buf (wt.getD signal_index Signal.empty).frames voice.position len
      let adv := voice.advance len
      mixLoop wt n rest buf' (vs.set i adv.1) (if adv.2 then insert i term else term)

/-- `Multiplexer::audio_requested` on a buffer of `n` frames: the buffer is
zeroed first (`sample::slice::equilibrium`), so only its length matters; the
playing voices are mixed in ascending slot order, then every terminated voice
is freed (again in ascending order).  Returns the new state and the filled
buffer. -/
def Multiplexer.audio_requested (m : Multiplexer) (n : ℕ) : Multiplexer × List Frame :=
  let order := (List.range m.voices.length).filter (· ∈ m.playing)
  let res := mixLoop m.wave_table n order (List.replicate n 0) m.voices ∅
  let term := (List.range m.voices.length).filter (· ∈ res.2.2)
  (term.foldl Multiplexer.free_voice { m with voices := res.2.1 }, res.1)

/-- `Multiplexer::new`: the fixed catalog (built with the hardcoded builder
sample rate 48000, regardless of the `sample_rate` argument, exactly as the
source does), `max_voices` default voices, nothing playing, and the free stack
`(0..max_voices).rev()` — top first in our representation, so `0` is popped
first. -/
def Multiplexer.new (env : AudioEnv) (sample_rate : ℚ) (max_voices : ℕ) : Multiplexer :=
  { sample_rate := sample_rate
    wave_table := catalogTable env
    sample_map := catalogMap
    voices := List.replicate max_voices Voice.dflt
    playing := ∅
    available := List.range max_voices }

/-- States reachable from `Multiplexer::new` by any sequence of `trigger` and
`audio_requested` calls. -/
inductive Reachable (env : AudioEnv) (sample_rate : ℚ) (max_voices : ℕ) : Multiplexer → Prop
  | init : Reachable env sample_rate max_voices (Multiplexer.new env sample_rate max_voices)
  | trigger {m : Multiplexer} {e : SoundEffect} :
      Reachable env sample_rate max_voices m →
      Reachable env sample_rate max_voices (m.trigger e)
  | audio {m : Multiplexer} {n : ℕ} :
      Reachable env sample_rate max_voices m →
      Reachable env sample_rate max_voices (m.audio_requested n).1

/-- The decidable voice-pool invariant: playing set and free stack partition
the slot indices, the stack has no duplicates, every playing voice references
an in-range wavetable signal whose length it carries, and every voice's cursor
is within its length. -/
def Multiplexer.WF (m : Multiplexer) : Prop :=
  m.playing ∪ m.available.toFinset = Finset.range m.voices.length
  ∧ Disjoint m.playing m.available.toFinset
  ∧ m.available.Nodup
  ∧ (∀ i ∈ m.playing,
      (m.voices.getD i Voice.dflt).signal.isSome = true
      ∧ (m.voices.getD i Voice.dflt).signal.getD 0 < m.wave_table.length
      ∧ (m.voices.getD i Voice.dflt).length
          = (m.wave_table.getD ((m.voices.getD i Voice.dflt).signal.getD 0)
              Signal.empty).frames.length)
  ∧ (∀ j, j < m.voices.length →
      (m.voices.getD j Voice.dflt).position ≤ (m.voices.getD j Voice.dflt).length)

/-- Contribution of slot `i` to output frame `k` of one `audio_requested`
call: the wavetable frame at `position + k` when the voice still has more than
`k` frames remaining, silence otherwise. -/
def voiceContrib (m : Multiplexer) (k i : ℕ) : Frame :=
  let v := m.voices.getD i Voice.dflt
  match v.signal with
  | none => 0
  | some s =>
    if k < v.remaining then (m.wave_table.getD s Signal.empty).frames.getD (v.position + k) 0
    else 0

/-- The effect of one `audio_requested` sweep on a single voice record: a
playing voice advances by `min n remaining`, a cleared slot is untouched
(specification helper for `mixLoop`). -/
def voiceStep (n : ℕ) (v : Voice) : Voice :=
  match v.signal with
  | none => v
  | some _ => { v with position := min v.length (v.position + min n v.remaining) }

/-- Whether one `audio_requested` sweep over a buffer of `n` frames drives the
voice to end-of-signal (specification helper for `mixLoop`). -/
def voiceEOF (n : ℕ) (v : Voice) : Bool :=
  match v.signal with
  | none => false
  | some _ => decide (v.length ≤ min v.length (v.position + min n v.remaining))

/-- The frame a single voice record adds to output index `k` during one sweep
over a buffer of `n` frames (specification helper for `mixLoop`). -/
def contribOf (wt : List Signal) (n : ℕ) (v : Voice) (k : ℕ) : Frame :=
  match v.signal with
  | none => 0
  | some s =>
    if k < min n v.remaining then (wt.getD s Signal.empty).frames.getD (v.position + k) 0
    else 0

/-- Closed form of the delay loop once only the travelling impulse echo is
left in slot 0 of the circular buffer (helper for the echo scenario). -/
def impTail (feedback : ℚ) (dl : ℕ) : ℕ → ℕ → Frame → List Frame
  | 0, _, _ => []
  | fuel + 1, i, v =>
    (if i % dl = 0 then v else 0)
      :: impTail feedback dl fuel (i + 1)
          (if i % dl = 0 then (feedback * v.2, feedback * v.1) else v)

/-- Number of multiples of `dl` in the interval `[i, i + j)`. -/
def cntM (dl : ℕ) : ℕ → ℕ → ℕ
  | _, 0 => 0
  | i, j + 1 => (if i % dl = 0 then 1 else 0) + cntM dl (i + 1) j

/-- The `k`-fold ping-pong echo: scale by `feedback` and swap the two channels,
`k` times over. -/
def pingIter (feedback : ℚ) : ℕ → Frame → Frame
  | 0, v => v
  | k + 1, v => (feedback * (pingIter feedback k v).2, feedback * (pingIter feedback k v).1)

/-- The decay ramp claim C7 asserts, written from the spec's words for
comparison with `Envelope.gain`: clamped interpolation from gain 1 at
`t = attack` down to `sustain` at `t = decay`. -/
def specDecayRamp (e : Envelope) (t : ℚ) : ℚ :=
  lerp_clip e.attack e.decay 1 e.sustain t

/-- Oscillator durations of the seven catalog entries, in catalog order. -/
def catalogDurations : List ℚ := [2, 1/10, 1/10, 3/10, 3/10, 1/2, 1]

/-- Delay-tail times of the seven catalog entries, in catalog order (8× the
`with_delay_time` argument of each chain). -/
def catalogTails : List ℚ := [8, 2, 2, 2, 33/100 * 8, 2, 4]

/-! ### Basic list helpers -/

theorem getD_set_self {α : Type} (l : List α) (i : ℕ) (a d : α) (h : i < l.length) :
    (l.set i a).getD i d = a := by
  rw [List.getD_eq_getElem?_getD, List.getElem?_eq_getElem (by simpa using h)]
  simp [List.getElem_set_self]

theorem getD_set_ne {α : Type} (l : List α) {i j : ℕ} (a d : α) (h : i ≠ j) :
    (l.set i a).getD j d = l.getD j d := by
  rw [List.getD_eq_getElem?_getD, List.getD_eq_getElem?_getD, List.getElem?_set_ne h]

theorem getD_replicate_self {α : Type} (n i : ℕ) (x : α) :
    (List.replicate n x).getD i x = x := by
  rw [List.getD_eq_getElem?_getD]
  rcases lt_or_le i n with h | h
  · rw [List.getElem?_eq_getElem (by simpa using h)]
    simp [List.getElem_replicate]
  · rw [List.getElem?_eq_none (by simpa using h)]
    rfl

theorem set_getD_self {α : Type} (l : List α) (i : ℕ) (d : α) :
    l.set i (l.getD i d) = l := by
  rcases lt_or_le i l.length with h | h
  · apply List.ext_getElem
    · simp
    · intro j h1 h2
      rw [List.getElem_set]
      split
      · subst j
        rw [List.getD_eq_getElem?_getD, List.getElem?_eq_getElem (by simpa using h)]
        rfl
      · rfl
  · exact List.set_eq_of_length_le h

/-- Evaluation form of `roundUsize`: it is `⌊q + 1/2⌋` saturated at 0. -/
theorem roundUsize_floor (q : ℚ) : roundUsize q = (⌊q + 1/2⌋).toNat := by
  unfold roundUsize
  rcases le_or_lt 0 (q + 1/2).num with h | h
  · obtain ⟨a, ha⟩ := Int.eq_ofNat_of_zero_le h
    rw [Rat.floor_def, ha, ← Int.ofNat_ediv, Int.toNat_ofNat, Int.toNat_ofNat]
  · have hx : q + 1/2 < 0 := Rat.num_neg.mp h
    rw [Int.toNat_of_nonpos h.le, Nat.zero_div, eq_comm, Int.toNat_eq_zero]
    calc ⌊q + 1/2⌋ ≤ ⌊(0 : ℚ)⌋ := Int.floor_le_floor hx.le
    _ = 0 := Int.floor_zero

/-! ### C9: square wave at the duty-cycle boundary -/

/-- C9: for every duty value `d`, `Waveform::Square(d)` sampled exactly at
phase `d` returns `+1` (and in particular does not panic): the sampled value is
`signum (phase - duty)`, the subtraction of equal finite floats is `+0.0`, and
Rust's `f32::signum (+0.0) = 1.0`. -/
theorem square_wave_at_duty (env : AudioEnv) (d : ℚ) :
    Waveform.sample env (Waveform.square d) d = 1 := by
  simp [Waveform.sample, rustSignum]

/-! ### C7: the decay ramp of `Envelope::gain` -/

/-- C7 counterexample: for the envelope `{attack = 1/2, decay = 1, sustain = 0,
release = 0}` at `t = 3/4` (which satisfies `attack ≤ t < decay`), the source
yields `3/4` — the ramp interpolated over `[attack, attack + decay]` — while
the claimed ramp from 1 at `attack` to `sustain` at `decay` yields `1/2`. -/
theorem gain_decay_ramp_counterexample :
    ((1 : ℚ)/2 ≤ 3/4 ∧ (3 : ℚ)/4 < 1)
      ∧ Envelope.gain ⟨1/2, 1, 0, 0⟩ 10 (3/4) ≠ specDecayRamp ⟨1/2, 1, 0, 0⟩ (3/4) := by
  constructor
  · constructor <;> norm_num
  · norm_num [Envelope.gain, specDecayRamp, lerp_clip, min_def, max_def]

/-- C7 amended: for `attack ≤ t < decay` the gain is the clamped linear ramp
from 1 at `t = attack` down to `sustain` at `t = attack + decay` (evaluated
only on `[attack, decay)` — the `decay` field is the branch boundary but NOT
the ramp's endpoint, so the ramp reaches `sustain` at `decay` only when
`attack = 0`). -/
theorem gain_decay_ramp_amended (e : Envelope) (duration t : ℚ)
    (h1 : e.attack ≤ t) (h2 : t < e.decay) :
    e.gain duration t = lerp_clip e.attack (e.attack + e.decay) 1 e.sustain t := by
  unfold Envelope.gain
  rw [if_neg (not_lt.mpr h1), if_pos h2]

/-- Witness for `gain_decay_ramp_amended` at a concrete envelope and time. -/
theorem gain_decay_ramp_amended_witness :
    ((1 : ℚ)/2 ≤ 3/4 ∧ (3 : ℚ)/4 < 1)
      ∧ Envelope.gain ⟨1/2, 1, 0, 0⟩ 10 (3/4) = lerp_clip (1/2) (1/2 + 1) 1 0 (3/4) :=
  ⟨⟨by norm_num, by norm_num⟩,
    gain_decay_ramp_amended ⟨1/2, 1, 0, 0⟩ 10 (3/4) (by norm_num) (by norm_num)⟩

/-! ### C8: panic boundary of the synthesis pipeline -/

/-- C8 counterexample: applying the Delay transform with a `delay_time` that
rounds to a zero-length delay buffer, on a one-frame source, does NOT complete:
`i % delay_length` is a remainder by zero on the very first iteration, which
panics in Rust (embedded as `none`). -/
theorem with_delay_zero_counterexample :
    Signal.with_delay ⟨48000, [(1, 1)]⟩ 0 0 1 (1/2) = none := by
  have h : roundUsize ((0 : ℚ) * 48000) = 0 := by
    rw [roundUsize_floor]
    norm_num
  have h0 : roundUsize (0 : ℚ) = 0 := by
    rw [roundUsize_floor]
    norm_num
  simp [Signal.with_delay, h, h0]

/-- C8 amended: envelope evaluation and zero-sample rendering are total, and
the Delay transform completes without panicking exactly when the delay buffer
is nonempty (`delay_length ≠ 0`) or the output is empty; a `delay_time`
rounding to a zero-length delay buffer with a nonempty output panics. -/
theorem with_delay_total_amended (sig : Signal) (time tail wet_dry feedback : ℚ) :
    (sig.with_delay time tail wet_dry feedback).isSome = true
      ↔ (roundUsize (time * sig.sample_rate) ≠ 0
          ∨ sig.frames.length + roundUsize (tail * sig.sample_rate) = 0) := by
  by_cases h : roundUsize (time * sig.sample_rate) = 0
      ∧ sig.frames.length + roundUsize (tail * sig.sample_rate) ≠ 0
  · simp [Signal.with_delay, h.1, h.2]
  · simp only [Signal.with_delay, h, if_false, Option.isSome_some, true_iff]
    rcases not_and_or.mp h with h1 | h1
    · exact Or.inl h1
    · exact Or.inr (not_not.mp h1)

/-! ### C6: delay output length and the ping-pong echo of an impulse -/

theorem delayLoop_length (src : List Frame) (wet_dry feedback : ℚ) (dl : ℕ) :
    ∀ (fuel i : ℕ) (buf : List Frame),
      (delayLoop src wet_dry feedback dl fuel i buf).length = fuel := by
  intro fuel
  induction fuel with
  | zero => intro i buf; rfl
  | succ fuel ih =>
    intro i buf
    simp only [delayLoop, List.length_cons, ih]

theorem pingIter_succ_inner (feedback : ℚ) (n : ℕ) (v : Frame) :
    pingIter feedback n (feedback * v.2, feedback * v.1) = pingIter feedback (n + 1) v := by
  induction n with
  | zero => rfl
  | succ n ih => simp only [pingIter, ih]

theorem pingIter_closed (feedback : ℚ) (k : ℕ) (v : Frame) :
    pingIter feedback k v
      = (feedback ^ k * (if k % 2 = 0 then v.1 else v.2),
         feedback ^ k * (if k % 2 = 0 then v.2 else v.1)) := by
  induction k with
  | zero => simp [pingIter]
  | succ k ih =>
    rw [pingIter, ih]
    by_cases hk : k % 2 = 0
    · have h1 : ¬((k + 1) % 2 = 0) := by omega
      simp only [hk, if_true, h1, if_false, Prod.mk.injEq]
      constructor <;> ring
    · have h1 : (k + 1) % 2 = 0 := by omega
      simp only [hk, if_false, h1, if_true, Prod.mk.injEq]
      constructor <;> ring

theorem impTail_getD (feedback : ℚ) (dl : ℕ) :
    ∀ (j fuel i : ℕ) (v : Frame), j < fuel →
      (impTail feedback dl fuel i v).getD j 0
        = if (i + j) % dl = 0 then pingIter feedback (cntM dl i j) v else 0 := by
  intro j
  induction j with
  | zero =>
    intro fuel i v hj
    obtain ⟨fuel', rfl⟩ : ∃ f, fuel = f + 1 := ⟨fuel - 1, (Nat.succ_pred_eq_of_pos hj).symm⟩
    simp [impTail, cntM, pingIter]
  | succ j ih =>
    intro fuel i v hj
    obtain ⟨fuel', rfl⟩ : ∃ f, fuel = f + 1 :=
      ⟨fuel - 1, (Nat.succ_pred_eq_of_pos (Nat.lt_of_le_of_lt (Nat.zero_le _) hj)).symm⟩
    rw [impTail, List.getD_cons_succ, ih fuel' (i + 1) _ (Nat.lt_of_succ_lt_succ hj)]
    have hidx : i + 1 + j = i + (j + 1) := by omega
    rw [hidx]
    by_cases hcond : (i + (j + 1)) % dl = 0
    · rw [if_pos hcond, if_pos hcond]
      by_cases hr : i % dl = 0
      · rw [if_pos hr, cntM, if_pos hr, pingIter_succ_inner]
        have : 1 + cntM dl (i + 1) j = cntM dl (i + 1) j + 1 := by omega
        rw [this]
      · rw [if_neg hr, cntM, if_neg hr, Nat.zero_add]
    · rw [if_neg hcond, if_neg hcond]

theorem cntM_eq (dl : ℕ) :
    ∀ (j i : ℕ), 1 ≤ i → cntM dl i j = (i + j - 1) / dl - (i - 1) / dl := by
  intro j
  induction j with
  | zero =>
    intro i hi
    simp [cntM]
  | succ j ih =>
    intro i hi
    have key : i / dl = (i - 1) / dl + (if i % dl = 0 then 1 else 0) := by
      have h1 : i - 1 + 1 = i := by omega
      have h2 := Nat.succ_div (i - 1) dl
      rw [h1] at h2
      rw [h2]
      congr 1
      by_cases hr0 : i % dl = 0
      · rw [if_pos (Nat.dvd_of_mod_eq_zero hr0), if_pos hr0]
      · rw [if_neg (fun hc => hr0 (Nat.dvd_iff_mod_eq_zero.mp hc)), if_neg hr0]
    have h3 : i / dl ≤ (i + j) / dl := Nat.div_le_div_right (by omega)
    have h4 : (i - 1) / dl ≤ i / dl := Nat.div_le_div_right (by omega)
    rw [cntM, ih (i + 1) (by omega)]
    have h5 : i + 1 + j - 1 = i + j := by omega
    have h6 : i + 1 - 1 = i := by omega
    have h7 : i + (j + 1) - 1 = i + j := by omega
    rw [h5, h6, h7]
    by_cases hr : i % dl = 0
    · rw [if_pos hr]
      rw [if_pos hr] at key
      omega
    · rw [if_neg hr]
      rw [if_neg hr] at key
      omega

theorem delayLoop_imp (src : List Frame) (feedback : ℚ) (dl : ℕ) (hdl : dl ≠ 0) :
    ∀ (fuel i : ℕ) (v : Frame), 1 ≤ i → (∀ j, i ≤ j → src.getD j 0 = 0) →
      delayLoop src 1 feedback dl fuel i ((List.replicate dl 0).set 0 v)
        = impTail feedback dl fuel i v := by
  intro fuel
  induction fuel with
  | zero => intro i v _ _; rfl
  | succ fuel ih =>
    intro i v hi hs
    have hlen : 0 < (List.replicate dl (0 : Frame)).length := by
      simpa using Nat.pos_of_ne_zero hdl
    have hsrc : src.getD i 0 = 0 := hs i le_rfl
    by_cases hr : i % dl = 0
    · have hget : ((List.replicate dl (0 : Frame)).set 0 v).getD (i % dl) 0 = v := by
        rw [hr]
        exact getD_set_self _ _ _ _ hlen
      rw [delayLoop, impTail, if_pos hr]
      simp only [hget, hsrc]
      have hset : ((List.replicate dl (0 : Frame)).set 0 v).set (i % dl)
            (feedback * (1 * (0 : Frame).2 + v.2), feedback * (1 * (0 : Frame).1 + v.1))
          = (List.replicate dl (0 : Frame)).set 0 (feedback * v.2, feedback * v.1) := by
        rw [hr, List.set_set]
        norm_num
      rw [hset, ih (i + 1) _ (by omega) (fun j hj => hs j (by omega))]
      have hhead : ((1 - 1) * (0 : Frame).1 + (1 * (0 : Frame).1 + v.1),
            (1 - 1) * (0 : Frame).2 + (1 * (0 : Frame).2 + v.2)) = v := by
        have : ∀ x : ℚ, (1 - 1) * (0 : ℚ) + (1 * 0 + x) = x := by intro x; ring
        exact Prod.ext (this v.1) (this v.2)
      rw [hhead, if_pos hr]
    · have hget : ((List.replicate dl (0 : Frame)).set 0 v).getD (i % dl) 0 = 0 := by
        rw [getD_set_ne _ _ _ (fun hc => hr hc.symm)]
        exact getD_replicate_self _ _ _
      rw [delayLoop, impTail, if_neg hr]
      simp only [hget, hsrc]
      have hset : ((List.replicate dl (0 : Frame)).set 0 v).set (i % dl)
            (feedback * (1 * (0 : Frame).2 + (0 : Frame).2),
             feedback * (1 * (0 : Frame).1 + (0 : Frame).1))
          = (List.replicate dl (0 : Frame)).set 0 v := by
        have hval : (feedback * (1 * (0 : Frame).2 + (0 : Frame).2),
              feedback * (1 * (0 : Frame).1 + (0 : Frame).1)) = (0 : Frame) := by
          have : feedback * (1 * (0 : ℚ) + 0) = 0 := by ring
          exact Prod.ext this this
        rw [hval, ← hget]
        have := set_getD_self (((List.replicate dl (0 : Frame)).set 0 v)) (i % dl) (0 : Frame)
        rw [hget] at this ⊢
        exact this
      rw [hset, ih (i + 1) _ (by omega) (fun j hj => hs j (by omega))]
      have hhead : ((1 - 1) * (0 : Frame).1 + (1 * (0 : Frame).1 + (0 : Frame).1),
            (1 - 1) * (0 : Frame).2 + (1 * (0 : Frame).2 + (0 : Frame).2)) = (0 : Frame) := by
        have : (1 - 1) * (0 : ℚ) + (1 * 0 + 0) = 0 := by ring
        exact Prod.ext this this
      rw [hhead, if_neg hr]

theorem delayLoop_imp_start (src : List Frame) (feedback : ℚ) (dl : ℕ) (hdl : dl ≠ 0)
    (imp : Frame) (h0 : src.getD 0 0 = imp) (hs : ∀ j, 1 ≤ j → src.getD j 0 = 0) (d' : ℕ) :
    delayLoop src 1 feedback dl (d' + 1) 0 (List.replicate dl 0)
      = imp :: impTail feedback dl d' 1 (feedback * imp.2, feedback * imp.1) := by
  have hz : (List.replicate dl (0 : Frame)).getD 0 0 = 0 := getD_replicate_self _ _ _
  rw [delayLoop]
  simp only [Nat.zero_mod, h0, hz, Prod.fst_zero, Prod.snd_zero, one_mul, add_zero,
    sub_self, zero_mul, zero_add, Prod.mk.eta]
  rw [delayLoop_imp src feedback dl hdl d' 1 (feedback * imp.2, feedback * imp.1) le_rfl hs]

/-- C6: for any source and delay parameters with a positive delay length, the
Delay transform succeeds and returns `source_length + tail_length` frames
(independently of the delay length); and when the source is a unit impulse
followed by silence and `wet_dry = 1`, the output at index `k·delay_length` is
the impulse scaled by `feedback^k` with the two channels swapped for odd `k`
(so `out[0]` is the impulse, `out[delay_length]` is `feedback ×` the swapped
impulse, `out[2·delay_length]` is `feedback² ×` the impulse, decaying
geometrically by `feedback` every `delay_length` samples). -/
theorem with_delay_length_and_echo (src : List Frame) (sr time tail wet_dry feedback : ℚ)
    (imp : Frame) (hdl : roundUsize (time * sr) ≠ 0) :
    ∃ out : List Frame,
      Signal.with_delay ⟨sr, src⟩ time tail wet_dry feedback = some ⟨sr, out⟩
      ∧ out.length = src.length + roundUsize (tail * sr)
      ∧ (wet_dry = 1 → src.getD 0 0 = imp → (∀ j, 1 ≤ j → src.getD j 0 = 0) →
          ∀ k, k * roundUsize (time * sr) < src.length + roundUsize (tail * sr) →
            out.getD (k * roundUsize (time * sr)) 0
              = (feedback ^ k * (if k % 2 = 0 then imp.1 else imp.2),
                 feedback ^ k * (if k % 2 = 0 then imp.2 else imp.1))) := by
  refine ⟨delayLoop src wet_dry feedback (roundUsize (time * sr))
      (src.length + roundUsize (tail * sr)) 0 (List.replicate (roundUsize (time * sr)) 0),
    ?_, delayLoop_length _ _ _ _ _ _ _, ?_⟩
  · simp only [Signal.with_delay, ne_eq, hdl, false_and, if_false]
  · intro hwd h0 hs k hk
    subst hwd
    have hdl0 : 0 < roundUsize (time * sr) := Nat.pos_of_ne_zero hdl
    obtain ⟨d', hd⟩ : ∃ d', src.length + roundUsize (tail * sr) = d' + 1 :=
      ⟨src.length + roundUsize (tail * sr) - 1, by omega⟩
    rw [hd, delayLoop_imp_start src feedback _ hdl imp h0 hs d']
    rcases Nat.eq_zero_or_pos k with rfl | hkpos
    · simp [pow_zero]
    · have hmul : 0 < k * roundUsize (time * sr) := Nat.mul_pos hkpos hdl0
      obtain ⟨m, hm⟩ : ∃ m, k * roundUsize (time * sr) = m + 1 :=
        ⟨k * roundUsize (time * sr) - 1, by omega⟩
      obtain ⟨k', rfl⟩ : ∃ k', k = k' + 1 := ⟨k - 1, by omega⟩
      rw [hm, List.getD_cons_succ]
      have hmlt : m < d' := by
        rw [hd, hm] at hk
        omega
      rw [impTail_getD feedback _ m d' 1 _ hmlt]
      have hc : (1 + m) % roundUsize (time * sr) = 0 := by
        have : 1 + m = (k' + 1) * roundUsize (time * sr) := by omega
        rw [this]
        exact Nat.mul_mod_left _ _
      rw [if_pos hc]
      have hcnt : cntM (roundUsize (time * sr)) 1 m = k' := by
        rw [cntM_eq _ m 1 le_rfl]
        have h1 : 1 + m - 1 = m := by omega
        have h2 : (1 : ℕ) - 1 = 0 := rfl
        rw [h1, h2, Nat.zero_div, Nat.sub_zero]
        have hm' : m = (roundUsize (time * sr) - 1) + k' * roundUsize (time * sr) := by
          have hsm : (k' + 1) * roundUsize (time * sr)
              = k' * roundUsize (time * sr) + roundUsize (time * sr) := Nat.succ_mul _ _
          omega
        rw [hm', Nat.add_mul_div_right _ _ hdl0, Nat.div_eq_of_lt (by omega), Nat.zero_add]
      rw [hcnt, pingIter_succ_inner, pingIter_closed]

/-- Witness for `with_delay_length_and_echo`: a one-frame impulse `(5, 7)` at
sample rate 1 with delay time 2 (delay length 2), tail 3, full wet mix and
feedback 1/2. -/
theorem with_delay_length_and_echo_witness :
    ∃ out : List Frame,
      Signal.with_delay ⟨1, [((5 : ℚ), (7 : ℚ))]⟩ 2 3 1 (1/2) = some ⟨1, out⟩
      ∧ out.length = [((5 : ℚ), (7 : ℚ))].length + roundUsize ((3 : ℚ) * 1)
      ∧ ((1 : ℚ) = 1 → [((5 : ℚ), (7 : ℚ))].getD 0 0 = (5, 7)
          → (∀ j, 1 ≤ j → [((5 : ℚ), (7 : ℚ))].getD j 0 = 0)
          → ∀ k, k * roundUsize ((2 : ℚ) * 1)
                < [((5 : ℚ), (7 : ℚ))].length + roundUsize ((3 : ℚ) * 1)
              → out.getD (k * roundUsize ((2 : ℚ) * 1)) 0
                = ((1/2 : ℚ) ^ k * (if k % 2 = 0 then ((5 : ℚ), (7 : ℚ)).1 else ((5 : ℚ), (7 : ℚ)).2),
                   (1/2 : ℚ) ^ k * (if k % 2 = 0 then ((5 : ℚ), (7 : ℚ)).2 else ((5 : ℚ), (7 : ℚ)).1))) :=
  with_delay_length_and_echo [((5 : ℚ), (7 : ℚ))] 1 2 3 1 (1/2) (5, 7)
    (by rw [roundUsize_floor]; norm_num)

/-! ### C5: lengths of the wavetable signals -/

theorem with_delay_some_length (sig : Signal) (time tail wet_dry feedback : ℚ)
    (hdl : roundUsize (time * sig.sample_rate) ≠ 0) :
    ∃ fr : List Frame,
      sig.with_delay time tail wet_dry feedback = some ⟨sig.sample_rate, fr⟩
      ∧ fr.length = sig.frames.length + roundUsize (tail * sig.sample_rate) := by
  refine ⟨delayLoop sig.frames wet_dry feedback (roundUsize (time * sig.sample_rate))
      (sig.frames.length + roundUsize (tail * sig.sample_rate)) 0
      (List.replicate (roundUsize (time * sig.sample_rate)) 0),
    ?_, delayLoop_length _ _ _ _ _ _ _⟩
  simp only [Signal.with_delay, ne_eq, hdl, false_and, if_false]

theorem signal_new_length (sample_rate duration : ℚ) (f : ℚ → Frame) :
    (Signal.new sample_rate duration f).frames.length = roundUsize (duration * sample_rate) := by
  simp only [Signal.new, List.length_map, List.length_range]

theorem build_some_length (env : AudioEnv) (b : SignalBuilder)
    (hdl : roundUsize (b.delay.time * b.sample_rate) ≠ 0) :
    ∃ s : Signal, b.build env = some s
      ∧ s.frames.length
          = roundUsize (b.oscillator.tone.duration * b.sample_rate)
            + roundUsize (b.delay.tail * b.sample_rate) := by
  obtain ⟨fr, heq, hlen⟩ :=
    with_delay_some_length
      (Signal.new b.sample_rate b.oscillator.tone.duration
        (b.oscillator.signal_function env b.pan b.envelope))
      b.delay.time b.delay.tail b.delay.wet_dry b.delay.feedback hdl
  refine ⟨_, heq, ?_⟩
  rw [hlen, signal_new_length]
  rfl

theorem build_getD_length_trans (env : AudioEnv) (b : SignalBuilder) (R : ℕ)
    (hdl : roundUsize (b.delay.time * b.sample_rate) ≠ 0)
    (hR : roundUsize (b.oscillator.tone.duration * b.sample_rate)
        + roundUsize (b.delay.tail * b.sample_rate) = R) :
    ((b.build env).getD Signal.empty).frames.length = R := by
  obtain ⟨s, hs, hlen⟩ := build_some_length env b hdl
  rw [hs, Option.getD_some, hlen, hR]

theorem catalogTable_len (env : AudioEnv) : (catalogTable env).length = 7 := rfl

theorem catalogTable_length (env : AudioEnv) :
    ∀ j, j < 7 →
      ((catalogTable env).getD j Signal.empty).frames.length
        = roundUsize (catalogDurations.getD j 0 * 48000)
          + roundUsize (catalogTails.getD j 0 * 48000) := by
  have step : ∀ b : SignalBuilder, ∀ R : ℕ,
      roundUsize (b.delay.time * b.sample_rate) ≠ 0 →
      (roundUsize (b.oscillator.tone.duration * b.sample_rate)
        + roundUsize (b.delay.tail * b.sample_rate) = R) →
      ((b.build env).getD Signal.empty).frames.length = R :=
    fun b R h1 h2 => build_getD_length_trans env b R h1 h2
  intro j hj
  interval_cases j
  · unfold catalogTable
    rw [List.getD_cons_zero]
    refine step _ _ ?_ ?_
    · rw [roundUsize_floor]
      norm_num [SignalBuilder.with_delay_time, SignalBuilder.with_delay, SignalBuilder.with_pan,
        SignalBuilder.with_envelope, SignalBuilder.from_oscillator, Oscillator.square,
        Oscillator.pwm, Oscillator.sin, Oscillator.harmonics, Delay.dflt]
    · rw [roundUsize_floor, roundUsize_floor, roundUsize_floor, roundUsize_floor]
      norm_num [SignalBuilder.with_delay_time, SignalBuilder.with_delay, SignalBuilder.with_pan,
        SignalBuilder.with_envelope, SignalBuilder.from_oscillator, Oscillator.square,
        Oscillator.pwm, Oscillator.sin, Oscillator.harmonics, Delay.dflt,
        catalogDurations, catalogTails]
  · unfold catalogTable
    rw [List.getD_cons_succ, List.getD_cons_zero]
    refine step _ _ ?_ ?_
    · rw [roundUsize_floor]
      norm_num [SignalBuilder.with_delay_time, SignalBuilder.with_delay, SignalBuilder.with_pan,
        SignalBuilder.with_envelope, SignalBuilder.from_oscillator, Oscillator.square,
        Oscillator.pwm, Oscillator.sin, Oscillator.harmonics, Delay.dflt]
    · rw [roundUsize_floor, roundUsize_floor, roundUsize_floor, roundUsize_floor]
      norm_num [SignalBuilder.with_delay_time, SignalBuilder.with_delay, SignalBuilder.with_pan,
        SignalBuilder.with_envelope, SignalBuilder.from_oscillator, Oscillator.square,
        Oscillator.pwm, Oscillator.sin, Oscillator.harmonics, Delay.dflt,
        catalogDurations, catalogTails]
  · unfold catalogTable
    rw [List.getD_cons_succ, List.getD_cons_succ, List.getD_cons_zero]
    refine step _ _ ?_ ?_
    · rw [roundUsize_floor]
      norm_num [SignalBuilder.with_delay_time, SignalBuilder.with_delay, SignalBuilder.with_pan,
        SignalBuilder.with_envelope, SignalBuilder.from_oscillator, Oscillator.square,
        Oscillator.pwm, Oscillator.sin, Oscillator.harmonics, Delay.dflt]
    · rw [roundUsize_floor, roundUsize_floor, roundUsize_floor, roundUsize_floor]
      norm_num [SignalBuilder.with_delay_time, SignalBuilder.with_delay, SignalBuilder.with_pan,
        SignalBuilder.with_envelope, SignalBuilder.from_oscillator, Oscillator.square,
        Oscillator.pwm, Oscillator.sin, Oscillator.harmonics, Delay.dflt,
        catalogDurations, catalogTails]
  · unfold catalogTable
    rw [List.getD_cons_succ, List.getD_cons_succ, List.getD_cons_succ, List.getD_cons_zero]
    refine step _ _ ?_ ?_
    · rw [roundUsize_floor]
      norm_num [SignalBuilder.with_delay_time, SignalBuilder.with_delay, SignalBuilder.with_pan,
        SignalBuilder.with_envelope, SignalBuilder.from_oscillator, Oscillator.square,
        Oscillator.pwm, Oscillator.sin, Oscillator.harmonics, Delay.dflt]
    · rw [roundUsize_floor, roundUsize_floor, roundUsize_floor, roundUsize_floor]
      norm_num [SignalBuilder.with_delay_time, SignalBuilder.with_delay, SignalBuilder.with_pan,
        SignalBuilder.with_envelope, SignalBuilder.from_oscillator, Oscillator.square,
        Oscillator.pwm, Oscillator.sin, Oscillator.harmonics, Delay.dflt,
        catalogDurations, catalogTails]
  · unfold catalogTable
    rw [List.getD_cons_succ, List.getD_cons_succ, List.getD_cons_succ, List.getD_cons_succ,
      List.getD_cons_zero]
    refine step _ _ ?_ ?_
    · rw [roundUsize_floor]
      norm_num [SignalBuilder.with_delay_time, SignalBuilder.with_delay, SignalBuilder.with_pan,
        SignalBuilder.with_envelope, SignalBuilder.from_oscillator, Oscillator.square,
        Oscillator.pwm, Oscillator.sin, Oscillator.harmonics, Delay.dflt]
    · rw [roundUsize_floor, roundUsize_floor, roundUsize_floor, roundUsize_floor]
      norm_num [SignalBuilder.with_delay_time, SignalBuilder.with_delay, SignalBuilder.with_pan,
        SignalBuilder.with_envelope, SignalBuilder.from_oscillator, Oscillator.square,
        Oscillator.pwm, Oscillator.sin, Oscillator.harmonics, Delay.dflt,
        catalogDurations, catalogTails]
  · unfold catalogTable
    rw [List.getD_cons_succ, List.getD_cons_succ, List.getD_cons_succ, List.getD_cons_succ,
      List.getD_cons_succ, List.getD_cons_zero]
    refine step _ _ ?_ ?_
    · rw [roundUsize_floor]
      norm_num [SignalBuilder.with_delay_time, SignalBuilder.with_delay, SignalBuilder.with_pan,
        SignalBuilder.with_envelope, SignalBuilder.from_oscillator, Oscillator.square,
        Oscillator.pwm, Oscillator.sin, Oscillator.harmonics, Delay.dflt]
    · rw [roundUsize_floor, roundUsize_floor, roundUsize_floor, roundUsize_floor]
      norm_num [SignalBuilder.with_delay_time, SignalBuilder.with_delay, SignalBuilder.with_pan,
        SignalBuilder.with_envelope, SignalBuilder.from_oscillator, Oscillator.square,
        Oscillator.pwm, Oscillator.sin, Oscillator.harmonics, Delay.dflt,
        catalogDurations, catalogTails]
  · unfold catalogTable
    rw [List.getD_cons_succ, List.getD_cons_succ, List.getD_cons_succ, List.getD_cons_succ,
      List.getD_cons_succ, List.getD_cons_succ, List.getD_cons_zero]
    refine step _ _ ?_ ?_
    · rw [roundUsize_floor]
      norm_num [SignalBuilder.with_delay_time, SignalBuilder.with_delay, SignalBuilder.with_pan,
        SignalBuilder.with_envelope, SignalBuilder.from_oscillator, Oscillator.square,
        Oscillator.pwm, Oscillator.sin, Oscillator.harmonics, Delay.dflt]
    · rw [roundUsize_floor, roundUsize_floor, roundUsize_floor, roundUsize_floor]
      norm_num [SignalBuilder.with_delay_time, SignalBuilder.with_delay, SignalBuilder.with_pan,
        SignalBuilder.with_envelope, SignalBuilder.from_oscillator, Oscillator.square,
        Oscillator.pwm, Oscillator.sin, Oscillator.harmonics, Delay.dflt,
        catalogDurations, catalogTails]

theorem free_voice_fields (m : Multiplexer) (i : ℕ) :
    (m.free_voice i).wave_table = m.wave_table
    ∧ (m.free_voice i).sample_map = m.sample_map
    ∧ (m.free_voice i).voices.length = m.voices.length :=
  ⟨rfl, rfl, List.length_set _ _ _⟩

theorem foldl_free_voice_fields (l : List ℕ) :
    ∀ m : Multiplexer,
      (l.foldl Multiplexer.free_voice m).wave_table = m.wave_table
      ∧ (l.foldl Multiplexer.free_voice m).sample_map = m.sample_map
      ∧ (l.foldl Multiplexer.free_voice m).voices.length = m.voices.length := by
  induction l with
  | nil => intro m; exact ⟨rfl, rfl, rfl⟩
  | cons i rest ih =>
    intro m
    refine ⟨?_, ?_, ?_⟩
    · rw [List.foldl_cons, (ih _).1]
      rfl
    · rw [List.foldl_cons, (ih _).2.1]
      rfl
    · rw [List.foldl_cons, (ih _).2.2]
      exact List.length_set _ _ _

theorem trigger_fields (m : Multiplexer) (e : SoundEffect) :
    (m.trigger e).wave_table = m.wave_table
    ∧ (m.trigger e).sample_map = m.sample_map
    ∧ (m.trigger e).voices.length = m.voices.length := by
  unfold Multiplexer.trigger Multiplexer.allocate_voice
  rcases m.sample_map e with _ | s
  · exact ⟨rfl, rfl, rfl⟩
  · rcases h : m.available with _ | ⟨i, rest⟩ <;>
      simp [h, List.length_set]

theorem mixLoop_voices_length (wt : List Signal) (n : ℕ) :
    ∀ (l : List ℕ) (buf : List Frame) (vs : List Voice) (term : Finset ℕ),
      (mixLoop wt n l buf vs term).2.1.length = vs.length := by
  intro l
  induction l with
  | nil => intro buf vs term; rfl
  | cons i rest ih =>
    intro buf vs term
    rw [mixLoop]
    rcases (vs.getD i Voice.dflt).signal with _ | s
    · exact ih _ _ _
    · rw [ih, List.length_set]

theorem audio_requested_fields (m : Multiplexer) (n : ℕ) :
    (m.audio_requested n).1.wave_table = m.wave_table
    ∧ (m.audio_requested n).1.sample_map = m.sample_map
    ∧ (m.audio_requested n).1.voices.length = m.voices.length := by
  unfold Multiplexer.audio_requested
  refine ⟨(foldl_free_voice_fields _ _).1, (foldl_free_voice_fields _ _).2.1, ?_⟩
  rw [(foldl_free_voice_fields _ _).2.2]
  exact mixLoop_voices_length _ _ _ _ _ _

theorem reachable_wave_table (env : AudioEnv) (sr : ℚ) (mv : ℕ) {m : Multiplexer}
    (h : Reachable env sr mv m) : m.wave_table = catalogTable env := by
  induction h with
  | init => rfl
  | trigger _ ih => rw [trigger_fields _ _ |>.1, ih]
  | audio _ ih => rw [audio_requested_fields _ _ |>.1, ih]

theorem reachable_sample_map (env : AudioEnv) (sr : ℚ) (mv : ℕ) {m : Multiplexer}
    (h : Reachable env sr mv m) : m.sample_map = catalogMap := by
  induction h with
  | init => rfl
  | trigger _ ih => rw [trigger_fields _ _ |>.2.1, ih]
  | audio _ ih => rw [audio_requested_fields _ _ |>.2.1, ih]

theorem reachable_voices_length (env : AudioEnv) (sr : ℚ) (mv : ℕ) {m : Multiplexer}
    (h : Reachable env sr mv m) : m.voices.length = mv := by
  induction h with
  | init => exact List.length_replicate _ _
  | trigger _ ih => rw [trigger_fields _ _ |>.2.2, ih]
  | audio _ ih => rw [audio_requested_fields _ _ |>.2.2, ih]

/-- C5 counterexample: the wavetable signal at index 1 (the `Click(1)` effect:
a 0.1 s square-wave oscillator rendered at the builder sample rate 48000 and
then run through the delay with a 2 s tail) is stored with
`100800 = round(0.1·48000) + round(2·48000)` frames, NOT with
`round(duration × sample_rate) = 4800` frames: `build` replaces the rendered
signal by its delayed version, whose tail lengthens it. -/
theorem wavetable_length_counterexample :
    ((catalogTable ⟨fun _ => 0, fun _ => 0, 0, 0, 0, 0, 0, 0, 0⟩).getD 1
        Signal.empty).frames.length = 100800
    ∧ roundUsize ((1/10 : ℚ) * 48000) = 4800
    ∧ (100800 : ℕ) ≠ 4800 := by
  refine ⟨?_, ?_, by norm_num⟩
  · rw [catalogTable_length _ 1 (by norm_num)]
    rw [roundUsize_floor, roundUsize_floor]
    norm_num [catalogDurations, catalogTails]
    all_goals omega
  · rw [roundUsize_floor]
    norm_num
    all_goals omega

/-- C5 amended: every signal stored in the wavetable has length
`round(duration × 48000) + round(delay_tail × 48000)` — the rendered
oscillator frames plus the delay tail appended by the builder's delay pass,
for the duration, delay tail and (hardcoded) builder sample rate 48000 used at
build time — and the wavetable never changes after construction, so no signal
ever changes length. -/
theorem wavetable_length_with_tail (env : AudioEnv) (sr : ℚ) (mv : ℕ) (m : Multiplexer)
    (h : Reachable env sr mv m) :
    m.wave_table = catalogTable env
    ∧ m.wave_table.length = 7
    ∧ ∀ j, j < 7 →
        (m.wave_table.getD j Signal.empty).frames.length
          = roundUsize (catalogDurations.getD j 0 * 48000)
            + roundUsize (catalogTails.getD j 0 * 48000) := by
  have hwt := reachable_wave_table env sr mv h
  rw [hwt]
  exact ⟨rfl, catalogTable_len env, catalogTable_length env⟩

/-- Witness for `wavetable_length_with_tail` at the initial state. -/
theorem wavetable_length_with_tail_witness :
    (Multiplexer.new ⟨fun _ => 0, fun _ => 0, 0, 0, 0, 0, 0, 0, 0⟩ 48000 4).wave_table
        = catalogTable ⟨fun _ => 0, fun _ => 0, 0, 0, 0, 0, 0, 0, 0⟩
    ∧ (Multiplexer.new ⟨fun _ => 0, fun _ => 0, 0, 0, 0, 0, 0, 0, 0⟩ 48000 4).wave_table.length
        = 7
    ∧ ∀ j, j < 7 →
        ((Multiplexer.new ⟨fun _ => 0, fun _ => 0, 0, 0, 0, 0, 0, 0, 0⟩ 48000
              4).wave_table.getD j Signal.empty).frames.length
          = roundUsize (catalogDurations.getD j 0 * 48000)
            + roundUsize (catalogTails.getD j 0 * 48000) :=
  wavetable_length_with_tail ⟨fun _ => 0, fun _ => 0, 0, 0, 0, 0, 0, 0, 0⟩ 48000 4 _
    Reachable.init

/-! ### The `audio_requested` sweep, characterised -/

theorem addRange_length (buf sig : List Frame) (pos len : ℕ) :
    (addRange buf sig pos len).length = buf.length := by
  simp [addRange]

theorem addRange_getD (buf sig : List Frame) (pos len k : ℕ) (hk : k < buf.length) :
    (addRange buf sig pos len).getD k 0
      = buf.getD k 0 + (if k < len then sig.getD (pos + k) 0 else 0) := by
  have hk2 : k < (addRange buf sig pos len).length := by rw [addRange_length]; exact hk
  rw [List.getD_eq_getElem?_getD, List.getElem?_eq_getElem (by simpa using hk2),
    Option.getD_some]
  rw [List.getD_eq_getElem?_getD buf, List.getElem?_eq_getElem (by simpa using hk),
    Option.getD_some]
  simp only [addRange, List.getElem_zipWith, List.getElem_range]
  split <;> simp

theorem voiceStep_eq_advance_fst (n : ℕ) (v : Voice) (s : ℕ) (hs : v.signal = some s) :
    voiceStep n v = (v.advance (min n v.remaining)).1 := by
  simp only [voiceStep, Voice.advance, hs]

theorem voiceEOF_eq_advance_snd (n : ℕ) (v : Voice) (s : ℕ) (hs : v.signal = some s) :
    voiceEOF n v = (v.advance (min n v.remaining)).2 := by
  simp only [voiceEOF, Voice.advance, hs]

theorem mixLoop_spec (wt : List Signal) (n : ℕ) :
    ∀ (li : List ℕ) (buf : List Frame) (vs : List Voice) (term : Finset ℕ),
      li.Nodup → (∀ i ∈ li, i < vs.length) →
      (mixLoop wt n li buf vs term).1.length = buf.length
      ∧ (∀ j, j ∉ li →
          (mixLoop wt n li buf vs term).2.1.getD j Voice.dflt = vs.getD j Voice.dflt
          ∧ (j ∈ (mixLoop wt n li buf vs term).2.2 ↔ j ∈ term))
      ∧ (∀ i ∈ li,
          (mixLoop wt n li buf vs term).2.1.getD i Voice.dflt
              = voiceStep n (vs.getD i Voice.dflt)
          ∧ (i ∈ (mixLoop wt n li buf vs term).2.2
              ↔ i ∈ term ∨ voiceEOF n (vs.getD i Voice.dflt) = true))
      ∧ (∀ k, k < buf.length →
          (mixLoop wt n li buf vs term).1.getD k 0
            = buf.getD k 0
              + (li.map fun i => contribOf wt n (vs.getD i Voice.dflt) k).sum) := by
  intro li
  induction li with
  | nil =>
    intro buf vs term _ _
    refine ⟨rfl, fun j _ => ⟨rfl, Iff.rfl⟩, fun i hi => absurd hi (List.not_mem_nil i), ?_⟩
    intro k _
    simp [mixLoop]
  | cons i rest ih =>
    intro buf vs term hnd hlt
    have hi_len : i < vs.length := hlt i (List.mem_cons_self i rest)
    have hnd' : rest.Nodup := (List.nodup_cons.mp hnd).2
    have hi_rest : i ∉ rest := (List.nodup_cons.mp hnd).1
    rcases hsig : (vs.getD i Voice.dflt).signal with _ | s
    · -- cleared slot: the sweep skips it entirely
      have hstep : mixLoop wt n (i :: rest) buf vs term = mixLoop wt n rest buf vs term := by
        simp only [mixLoop, hsig]
      obtain ⟨L, NJ, NI, B⟩ := ih buf vs term hnd' (fun j hj => hlt j (List.mem_cons_of_mem _ hj))
      rw [hstep]
      refine ⟨L, ?_, ?_, ?_⟩
      · intro j hj
        exact NJ j (fun hc => hj (List.mem_cons_of_mem _ hc))
      · intro x hx
        rcases List.mem_cons.mp hx with rfl | hx'
        · refine ⟨?_, ?_⟩
          · rw [(NJ x hi_rest).1]
            simp only [voiceStep, hsig]
          · rw [(NJ x hi_rest).2]
            simp only [voiceEOF, hsig]
            exact ⟨Or.inl, fun h => h.resolve_right (by simp)⟩
        · exact NI x hx'
      · intro k hk
        rw [B k hk, List.map_cons, List.sum_cons]
        simp only [contribOf, hsig, zero_add]
    · -- playing slot: mix, advance, maybe mark terminated
      have hstep : mixLoop wt n (i :: rest) buf vs term
          = mixLoop wt n rest
              (addRange buf (wt.getD s Signal.empty).frames (vs.getD i Voice.dflt).position
                (min n (vs.getD i Voice.dflt).remaining))
              (vs.set i ((vs.getD i Voice.dflt).advance
                (min n (vs.getD i Voice.dflt).remaining)).1)
              (if ((vs.getD i Voice.dflt).advance
                  (min n (vs.getD i Voice.dflt).remaining)).2
                then insert i term else term) := by
        simp only [mixLoop, hsig]
      obtain ⟨L, NJ, NI, B⟩ := ih
        (addRange buf (wt.getD s Signal.empty).frames (vs.getD i Voice.dflt).position
          (min n (vs.getD i Voice.dflt).remaining))
        (vs.set i ((vs.getD i Voice.dflt).advance (min n (vs.getD i Voice.dflt).remaining)).1)
        (if ((vs.getD i Voice.dflt).advance (min n (vs.getD i Voice.dflt).remaining)).2
          then insert i term else term)
        hnd'
        (fun j hj => by
          rw [List.length_set]
          exact hlt j (List.mem_cons_of_mem _ hj))
      rw [hstep]
      have hset_ne : ∀ j, j ≠ i →
          (vs.set i ((vs.getD i Voice.dflt).advance
            (min n (vs.getD i Voice.dflt).remaining)).1).getD j Voice.dflt
            = vs.getD j Voice.dflt := by
        intro j hj
        exact getD_set_ne _ _ _ (fun hc => hj hc.symm)
      have hterm_ne : ∀ j, j ≠ i →
          (j ∈ (if ((vs.getD i Voice.dflt).advance
              (min n (vs.getD i Voice.dflt).remaining)).2
            then insert i term else term) ↔ j ∈ term) := by
        intro j hj
        split
        · rw [Finset.mem_insert]
          exact ⟨fun h => h.resolve_left hj, Or.inr⟩
        · exact Iff.rfl
      refine ⟨?_, ?_, ?_, ?_⟩
      · rw [L, addRange_length]
      · intro j hj
        have hji : j ≠ i := fun hc => hj (hc ▸ List.mem_cons_self i rest)
        have hjr : j ∉ rest := fun hc => hj (List.mem_cons_of_mem _ hc)
        refine ⟨?_, ?_⟩
        · rw [(NJ j hjr).1, hset_ne j hji]
        · rw [(NJ j hjr).2, hterm_ne j hji]
      · intro x hx
        rcases List.mem_cons.mp hx with rfl | hx'
        · refine ⟨?_, ?_⟩
          · rw [(NJ x hi_rest).1, getD_set_self _ _ _ _ hi_len,
              voiceStep_eq_advance_fst n _ s hsig]
          · rw [(NJ x hi_rest).2, voiceEOF_eq_advance_snd n _ s hsig]
            by_cases he : ((vs.getD x Voice.dflt).advance
                (min n (vs.getD x Voice.dflt).remaining)).2 = true
            · rw [if_pos he]
              exact ⟨fun _ => Or.inr he, fun _ => Finset.mem_insert_self x term⟩
            · rw [if_neg he]
              exact ⟨Or.inl, fun h => h.resolve_right he⟩
        · have hxi : x ≠ i := fun hc => hi_rest (hc ▸ hx')
          obtain ⟨h1, h2⟩ := NI x hx'
          rw [hset_ne x hxi] at h1 h2
          exact ⟨h1, by rw [h2, hterm_ne x hxi]⟩
      · intro k hk
        have hk' : k < (addRange buf (wt.getD s Signal.empty).frames
            (vs.getD i Voice.dflt).position
            (min n (vs.getD i Voice.dflt).remaining)).length := by
          rw [addRange_length]; exact hk
        rw [B k hk', addRange_getD _ _ _ _ _ hk, List.map_cons, List.sum_cons]
        have hmap : (rest.map fun j =>
            contribOf wt n ((vs.set i ((vs.getD i Voice.dflt).advance
              (min n (vs.getD i Voice.dflt).remaining)).1).getD j Voice.dflt) k)
            = rest.map fun j => contribOf wt n (vs.getD j Voice.dflt) k := by
          refine List.map_congr_left ?_
          intro j hj
          rw [hset_ne j (fun hc => hi_rest (hc ▸ hj))]
        rw [hmap, add_assoc]
        congr 1
        simp only [contribOf, hsig]

theorem free_voice_voices_length (m : Multiplexer) (i : ℕ) :
    (m.free_voice i).voices.length = m.voices.length :=
  List.length_set _ _ _

theorem free_voice_voices_getD_ne (m : Multiplexer) (i j : ℕ) (h : j ≠ i) :
    (m.free_voice i).voices.getD j Voice.dflt = m.voices.getD j Voice.dflt := by
  show (m.voices.set i { m.voices.getD i Voice.dflt with signal := none }).getD j Voice.dflt
      = m.voices.getD j Voice.dflt
  exact getD_set_ne _ _ _ (fun hc => h hc.symm)

theorem free_voice_voices_getD_self (m : Multiplexer) (i : ℕ) (hiL : i < m.voices.length) :
    (m.free_voice i).voices.getD i Voice.dflt
      = { m.voices.getD i Voice.dflt with signal := none } := by
  show (m.voices.set i { m.voices.getD i Voice.dflt with signal := none }).getD i Voice.dflt
      = { m.voices.getD i Voice.dflt with signal := none }
  exact getD_set_self _ _ _ _ hiL

theorem free_voice_playing (m : Multiplexer) (i : ℕ) :
    (m.free_voice i).playing = m.playing.erase i := rfl

theorem free_voice_available (m : Multiplexer) (i : ℕ) :
    (m.free_voice i).available = i :: m.available := rfl

theorem foldl_free_voice_spec :
    ∀ (l : List ℕ) (m : Multiplexer), l.Nodup → (∀ i ∈ l, i < m.voices.length) →
      (l.foldl Multiplexer.free_voice m).playing = m.playing \ l.toFinset
      ∧ (l.foldl Multiplexer.free_voice m).available = l.reverse ++ m.available
      ∧ (∀ j, j ∉ l →
          (l.foldl Multiplexer.free_voice m).voices.getD j Voice.dflt
            = m.voices.getD j Voice.dflt)
      ∧ (∀ i ∈ l,
          (l.foldl Multiplexer.free_voice m).voices.getD i Voice.dflt
            = { m.voices.getD i Voice.dflt with signal := none }) := by
  intro l
  induction l with
  | nil =>
    intro m _ _
    refine ⟨by simp, by simp, fun j _ => rfl, fun i hi => absurd hi (List.not_mem_nil i)⟩
  | cons i rest ih =>
    intro m hnd hlt
    have hi_len : i < m.voices.length := hlt i (List.mem_cons_self i rest)
    have hnd' : rest.Nodup := (List.nodup_cons.mp hnd).2
    have hi_rest : i ∉ rest := (List.nodup_cons.mp hnd).1
    obtain ⟨P, A, VJ, VI⟩ := ih (m.free_voice i) hnd'
      (fun j hj => by rw [free_voice_voices_length]; exact hlt j (List.mem_cons_of_mem _ hj))
    rw [List.foldl_cons]
    refine ⟨?_, ?_, ?_, ?_⟩
    · rw [P]
      ext x
      simp only [Multiplexer.free_voice, Finset.mem_sdiff, Finset.mem_erase,
        List.mem_toFinset, List.mem_cons]
      tauto
    · rw [A]
      simp [Multiplexer.free_voice, List.reverse_cons, List.append_assoc]
    · intro j hj
      have hji : j ≠ i := fun hc => hj (hc ▸ List.mem_cons_self i rest)
      have hjr : j ∉ rest := fun hc => hj (List.mem_cons_of_mem _ hc)
      rw [VJ j hjr]
      exact free_voice_voices_getD_ne m i j hji
    · intro x hx
      rcases List.mem_cons.mp hx with rfl | hx'
      · rw [VJ x hi_rest]
        exact free_voice_voices_getD_self m x hi_len
      · have hxi : x ≠ i := fun hc => hi_rest (hc ▸ hx')
        rw [VI x hx', free_voice_voices_getD_ne m i x hxi]

theorem WF_new (env : AudioEnv) (sr : ℚ) (mv : ℕ) : (Multiplexer.new env sr mv).WF := by
  refine ⟨?_, ?_, ?_, ?_, ?_⟩
  · ext x
    simp [Multiplexer.new]
  · simp [Multiplexer.new]
  · exact List.nodup_range mv
  · intro i hi
    simp [Multiplexer.new] at hi
  · intro j _
    have h : (List.replicate mv Voice.dflt).getD j Voice.dflt = Voice.dflt :=
      getD_replicate_self _ _ _
    show ((List.replicate mv Voice.dflt).getD j Voice.dflt).position
        ≤ ((List.replicate mv Voice.dflt).getD j Voice.dflt).length
    rw [h]
    exact Nat.le_refl _

theorem WF_trigger (m : Multiplexer) (e : SoundEffect) (hwf : m.WF)
    (hmap : ∀ e' s, m.sample_map e' = some s → s < m.wave_table.length) :
    (m.trigger e).WF := by
  obtain ⟨hpart, hdisj, hnd, hvoice, hpos⟩ := hwf
  unfold Multiplexer.trigger
  rcases hse : m.sample_map e with _ | s
  · simp only []
    exact ⟨hpart, hdisj, hnd, hvoice, hpos⟩
  · simp only []
    unfold Multiplexer.allocate_voice
    rcases hav : m.available with _ | ⟨i, rest⟩
    · simp only []
      exact ⟨hpart, hdisj, hnd, hvoice, hpos⟩
    · simp only []
      have hiav : i ∈ m.available.toFinset := by
        rw [hav]
        exact List.mem_toFinset.mpr (List.mem_cons_self i rest)
      have hiL : i < m.voices.length := by
        have h := Finset.mem_union_right m.playing hiav
        rw [hpart] at h
        exact Finset.mem_range.mp h
      have hip : i ∉ m.playing := Finset.disjoint_right.mp hdisj hiav
      have hir : i ∉ rest := by
        rw [hav] at hnd
        exact (List.nodup_cons.mp hnd).1
      have hrest_nd : rest.Nodup := by
        rw [hav] at hnd
        exact (List.nodup_cons.mp hnd).2
      have hrest_sub : ∀ x ∈ rest, x ∈ m.available.toFinset := by
        intro x hx
        rw [hav]
        exact List.mem_toFinset.mpr (List.mem_cons_of_mem _ hx)
      refine ⟨?_, ?_, ?_, ?_, ?_⟩
      · rw [List.length_set]
        have hpart2 : m.playing ∪ (i :: rest).toFinset = Finset.range m.voices.length := by
          rw [← hav]
          exact hpart
        rw [← hpart2]
        ext x
        simp only [Finset.mem_union, Finset.mem_insert, List.mem_toFinset, List.mem_cons]
        tauto
      · rw [Finset.disjoint_left]
        intro x hx hxr
        rcases Finset.mem_insert.mp hx with rfl | hxp
        · exact hir (List.mem_toFinset.mp hxr)
        · exact Finset.disjoint_left.mp hdisj hxp (hrest_sub x (List.mem_toFinset.mp hxr))
      · exact hrest_nd
      · intro x hx
        rcases Finset.mem_insert.mp hx with rfl | hxp
        · rw [getD_set_self _ _ _ _ hiL]
          exact ⟨rfl, hmap e s hse, rfl⟩
        · have hxi : x ≠ i := fun hc => hip (hc ▸ hxp)
          rw [getD_set_ne _ _ _ (fun hc => hxi hc.symm)]
          exact hvoice x hxp
      · intro j hj
        rw [List.length_set] at hj
        by_cases hji : j = i
        · subst hji
          rw [getD_set_self _ _ _ _ hiL]
          exact Nat.zero_le _
        · rw [getD_set_ne _ _ _ (fun hc => hji hc.symm)]
          exact hpos j hj

theorem WF_free_voice (m : Multiplexer) (i : ℕ) (hwf : m.WF) (hi : i ∈ m.playing) :
    (m.free_voice i).WF := by
  obtain ⟨hpart, hdisj, hnd, hvoice, hpos⟩ := hwf
  have hiL : i < m.voices.length := by
    have h := Finset.mem_union_left m.available.toFinset hi
    rw [hpart] at h
    exact Finset.mem_range.mp h
  have hiav : i ∉ m.available := by
    intro hc
    exact Finset.disjoint_left.mp hdisj hi (List.mem_toFinset.mpr hc)
  refine ⟨?_, ?_, ?_, ?_, ?_⟩
  · rw [free_voice_playing, free_voice_available, free_voice_voices_length, ← hpart]
    ext x
    simp only [Finset.mem_union, Finset.mem_erase, List.mem_toFinset, List.mem_cons]
    constructor
    · rintro (⟨hxi, hxp⟩ | (rfl | hxa))
      · exact Or.inl hxp
      · exact Or.inl hi
      · exact Or.inr hxa
    · rintro (hxp | hxa)
      · by_cases hxi : x = i
        · exact Or.inr (Or.inl hxi)
        · exact Or.inl ⟨hxi, hxp⟩
      · exact Or.inr (Or.inr hxa)
  · rw [free_voice_playing, free_voice_available, Finset.disjoint_left]
    intro x hx hxa
    have hxp := Finset.mem_erase.mp hx
    rcases List.mem_cons.mp (List.mem_toFinset.mp hxa) with rfl | hc
    · exact hxp.1 rfl
    · exact Finset.disjoint_left.mp hdisj hxp.2 (List.mem_toFinset.mpr hc)
  · rw [free_voice_available]
    exact List.nodup_cons.mpr ⟨hiav, hnd⟩
  · intro x hx
    rw [free_voice_playing] at hx
    have hxp := Finset.mem_erase.mp hx
    rw [free_voice_voices_getD_ne m i x hxp.1]
    exact hvoice x hxp.2
  · intro j hj
    rw [free_voice_voices_length] at hj
    by_cases hji : j = i
    · subst hji
      rw [free_voice_voices_getD_self m j hiL]
      exact hpos j hj
    · rw [free_voice_voices_getD_ne m i j hji]
      exact hpos j hj

theorem WF_freeLoop :
    ∀ (l : List ℕ) (m : Multiplexer), l.Nodup → (∀ i ∈ l, i ∈ m.playing) → m.WF →
      (l.foldl Multiplexer.free_voice m).WF := by
  intro l
  induction l with
  | nil => intro m _ _ hwf; exact hwf
  | cons i rest ih =>
    intro m hnd hmem hwf
    have hi : i ∈ m.playing := hmem i (List.mem_cons_self i rest)
    rw [List.foldl_cons]
    refine ih (m.free_voice i) (List.nodup_cons.mp hnd).2 ?_ (WF_free_voice m i hwf hi)
    intro j hj
    show j ∈ m.playing.erase i
    exact Finset.mem_erase.mpr
      ⟨fun hc => (List.nodup_cons.mp hnd).1 (hc ▸ hj), hmem j (List.mem_cons_of_mem _ hj)⟩

theorem voiceStep_signal (n : ℕ) (v : Voice) : (voiceStep n v).signal = v.signal := by
  rcases h : v.signal with _ | s <;> simp only [voiceStep, h]

theorem voiceStep_length (n : ℕ) (v : Voice) : (voiceStep n v).length = v.length := by
  rcases h : v.signal with _ | s <;> simp only [voiceStep, h]

theorem voiceStep_pos_le (n : ℕ) (v : Voice) (hp : v.position ≤ v.length) :
    (voiceStep n v).position ≤ (voiceStep n v).length := by
  rcases h : v.signal with _ | s
  · simp only [voiceStep, h]
    exact hp
  · simp only [voiceStep, h]
    exact min_le_left _ _

theorem voiceStep_position (n : ℕ) (v : Voice) (s : ℕ) (hs : v.signal = some s)
    (hp : v.position ≤ v.length) :
    (voiceStep n v).position = v.position + min n v.remaining := by
  simp only [voiceStep, hs, Voice.remaining]
  omega

theorem voiceEOF_true_iff (n : ℕ) (v : Voice) (s : ℕ) (hs : v.signal = some s)
    (hp : v.position ≤ v.length) :
    voiceEOF n v = true ↔ v.remaining ≤ n := by
  simp only [voiceEOF, hs, decide_eq_true_eq, Voice.remaining]
  omega

theorem contribOf_eq_voiceContrib (m : Multiplexer) (n k i : ℕ) (hk : k < n) :
    contribOf m.wave_table n (m.voices.getD i Voice.dflt) k = voiceContrib m k i := by
  rcases h : (m.voices.getD i Voice.dflt).signal with _ | s
  · simp only [contribOf, voiceContrib, h]
  · simp only [contribOf, voiceContrib, h]
    by_cases hc : k < (m.voices.getD i Voice.dflt).remaining
    · rw [if_pos (by omega), if_pos hc]
    · rw [if_neg (by omega), if_neg hc]

/-- Full characterisation of one `audio_requested` call on a well-formed
state: the invariant is preserved, the output has the buffer's length and
holds the additive mix of all playing voices, and each playing voice advances
by `min n remaining`, staying in the playing set exactly while `n` is short of
its remaining length and otherwise moving (cleared) to the free stack. -/
theorem audio_requested_spec (m : Multiplexer) (n : ℕ) (hwf : m.WF) :
    ((m.audio_requested n).1).WF
    ∧ ((m.audio_requested n).2).length = n
    ∧ (∀ k, k < n → ((m.audio_requested n).2).getD k 0
        = m.playing.sum fun i => voiceContrib m k i)
    ∧ (∀ i ∈ m.playing,
        ((m.audio_requested n).1.voices.getD i Voice.dflt).position
            = (m.voices.getD i Voice.dflt).position
              + min n (m.voices.getD i Voice.dflt).remaining
        ∧ (i ∈ (m.audio_requested n).1.playing
            ↔ n < (m.voices.getD i Voice.dflt).remaining)
        ∧ ((m.voices.getD i Voice.dflt).remaining ≤ n →
            ((m.audio_requested n).1.voices.getD i Voice.dflt).signal = none
            ∧ i ∈ (m.audio_requested n).1.available)
        ∧ (n < (m.voices.getD i Voice.dflt).remaining →
            i ∉ (m.audio_requested n).1.available)) := by
  obtain ⟨hpart, hdisj, hnd, hvoice, hpos⟩ := hwf
  set order := (List.range m.voices.length).filter (· ∈ m.playing) with horder
  set res := mixLoop m.wave_table n order (List.replicate n 0) m.voices ∅ with hres
  set termL := (List.range m.voices.length).filter (· ∈ res.2.2) with htermL
  set m1 : Multiplexer := { m with voices := res.2.1 } with hm1
  have h1 : (m.audio_requested n).1 = termL.foldl Multiplexer.free_voice m1 := rfl
  have h2 : (m.audio_requested n).2 = res.1 := rfl
  have hm1p : m1.playing = m.playing := by rw [hm1]
  have hm1a : m1.available = m.available := by rw [hm1]
  have hm1v : m1.voices = res.2.1 := by rw [hm1]
  have hm1w : m1.wave_table = m.wave_table := by rw [hm1]
  have hplayL : ∀ i ∈ m.playing, i < m.voices.length := by
    intro i hi
    have h := Finset.mem_union_left m.available.toFinset hi
    rw [hpart] at h
    exact Finset.mem_range.mp h
  have hord_nd : order.Nodup := (List.nodup_range _).filter _
  have hord_lt : ∀ i ∈ order, i < m.voices.length :=
    fun i hi => List.mem_range.mp (List.mem_filter.mp hi).1
  have hord_mem : ∀ i ∈ order, i ∈ m.playing := by
    intro i hi
    have := (List.mem_filter.mp hi).2
    simpa using this
  have hmemord : ∀ i ∈ m.playing, i ∈ order := by
    intro i hi
    exact List.mem_filter.mpr ⟨List.mem_range.mpr (hplayL i hi), by simpa using hi⟩
  obtain ⟨ML, MNJ, MNI, MB⟩ := mixLoop_spec m.wave_table n order (List.replicate n 0)
    m.voices ∅ hord_nd hord_lt
  rw [← hres] at ML MNJ MNI MB
  have hresL : res.2.1.length = m.voices.length := by
    rw [hres]
    exact mixLoop_voices_length _ _ _ _ _ _
  have htermsub : ∀ i ∈ termL, i ∈ m.playing := by
    intro i hi
    have himem : i ∈ res.2.2 := by simpa using (List.mem_filter.mp hi).2
    by_contra hip
    have hiord : i ∉ order := fun hc => hip (hord_mem i hc)
    exact absurd ((MNJ i hiord).2.mp himem) (Finset.not_mem_empty i)
  have hterm_nd : termL.Nodup := (List.nodup_range _).filter _
  have htermmem : ∀ i ∈ m.playing,
      (i ∈ termL ↔ voiceEOF n (m.voices.getD i Voice.dflt) = true) := by
    intro i hi
    constructor
    · intro hIT
      have hmm : i ∈ res.2.2 := by simpa using (List.mem_filter.mp hIT).2
      rcases (MNI i (hmemord i hi)).2.mp hmm with hfalse | heof
      · exact absurd hfalse (Finset.not_mem_empty i)
      · exact heof
    · intro heof
      refine List.mem_filter.mpr ⟨List.mem_range.mpr (hplayL i hi), ?_⟩
      have := (MNI i (hmemord i hi)).2.mpr (Or.inr heof)
      simpa using this
  have hwf1 : m1.WF := by
    refine ⟨?_, ?_, ?_, ?_, ?_⟩
    · rw [hm1p, hm1a, hm1v, hresL]
      exact hpart
    · rw [hm1p, hm1a]
      exact hdisj
    · rw [hm1a]
      exact hnd
    · intro i hi
      rw [hm1p] at hi
      rw [hm1v, hm1w, (MNI i (hmemord i hi)).1, voiceStep_signal, voiceStep_length]
      exact hvoice i hi
    · intro j hj
      rw [hm1v, hresL] at hj
      rw [hm1v]
      by_cases hjo : j ∈ order
      · rw [(MNI j hjo).1]
        exact voiceStep_pos_le n _ (hpos j hj)
      · rw [(MNJ j hjo).1]
        exact hpos j hj
  have hterm_lt : ∀ i ∈ termL, i < m1.voices.length := by
    intro i hi
    rw [hm1v, hresL]
    exact hplayL i (htermsub i hi)
  obtain ⟨FP, FA, FVJ, FVI⟩ := foldl_free_voice_spec termL m1 hterm_nd hterm_lt
  have hwfF : ((m.audio_requested n).1).WF := by
    rw [h1]
    refine WF_freeLoop termL m1 hterm_nd ?_ hwf1
    intro i hi
    rw [hm1p]
    exact htermsub i hi
  refine ⟨hwfF, ?_, ?_, ?_⟩
  · rw [h2, ML, List.length_replicate]
  · intro k hk
    rw [h2, MB k (by rw [List.length_replicate]; exact hk)]
    rw [getD_replicate_self, zero_add]
    have hmap : (order.map fun i => contribOf m.wave_table n (m.voices.getD i Voice.dflt) k)
        = order.map fun i => voiceContrib m k i := by
      refine List.map_congr_left ?_
      intro i _
      exact contribOf_eq_voiceContrib m n k i hk
    rw [hmap, ← List.sum_toFinset _ hord_nd]
    have hofin : order.toFinset = m.playing := by
      ext x
      simp only [List.mem_toFinset]
      exact ⟨hord_mem x, hmemord x⟩
    rw [hofin]
  · intro i hi
    have hio := hmemord i hi
    have hiL := hplayL i hi
    obtain ⟨hsome, hsig_lt, hlen⟩ := hvoice i hi
    obtain ⟨s, hs⟩ := Option.isSome_iff_exists.mp hsome
    have hposle := hpos i hiL
    have hmix : res.2.1.getD i Voice.dflt = voiceStep n (m.voices.getD i Voice.dflt) :=
      (MNI i hio).1
    have hiavail : i ∉ m.available :=
      fun hc => Finset.disjoint_left.mp hdisj hi (List.mem_toFinset.mpr hc)
    refine ⟨?_, ?_, ?_, ?_⟩
    · rw [h1]
      by_cases hit : i ∈ termL
      · rw [FVI i hit, hm1v, hmix]
        show (voiceStep n (m.voices.getD i Voice.dflt)).position = _
        exact voiceStep_position n _ s hs hposle
      · rw [FVJ i hit, hm1v, hmix]
        exact voiceStep_position n _ s hs hposle
    · rw [h1, FP, hm1p]
      rw [Finset.mem_sdiff]
      constructor
      · rintro ⟨_, hnt⟩
        by_contra hnlt
        have heof : voiceEOF n (m.voices.getD i Voice.dflt) = true :=
          (voiceEOF_true_iff n _ s hs hposle).mpr (by omega)
        exact hnt (List.mem_toFinset.mpr ((htermmem i hi).mpr heof))
      · intro hlt
        refine ⟨hi, fun hc => ?_⟩
        have heof := (htermmem i hi).mp (List.mem_toFinset.mp hc)
        have := (voiceEOF_true_iff n _ s hs hposle).mp heof
        omega
    · intro hrem
      have heof : voiceEOF n (m.voices.getD i Voice.dflt) = true :=
        (voiceEOF_true_iff n _ s hs hposle).mpr hrem
      have hit : i ∈ termL := (htermmem i hi).mpr heof
      constructor
      · rw [h1, FVI i hit]
      · rw [h1, FA, hm1a]
        exact List.mem_append.mpr (Or.inl (List.mem_reverse.mpr hit))
    · intro hlt
      have hit : i ∉ termL := by
        intro hc
        have := (voiceEOF_true_iff n _ s hs hposle).mp ((htermmem i hi).mp hc)
        omega
      rw [h1, FA, hm1a]
      intro hc
      rcases List.mem_append.mp hc with hc1 | hc2
      · exact hit (List.mem_reverse.mp hc1)
      · exact hiavail hc2

theorem catalogMap_lt {e : SoundEffect} {s : ℕ} (h : catalogMap e = some s) : s < 7 := by
  cases e with
  | click n =>
    rcases n with _ | _ | n
    · simp [catalogMap] at h
    · simp [catalogMap] at h
      omega
    · simp [catalogMap] at h
  | startup => simp [catalogMap] at h; omega
  | userOption => simp [catalogMap] at h; omega
  | fertilised => simp [catalogMap] at h; omega
  | newSpore => simp [catalogMap] at h; omega
  | newMinion => simp [catalogMap] at h; omega
  | dieMinion => simp [catalogMap] at h; omega

theorem Reachable_WF (env : AudioEnv) (sr : ℚ) (mv : ℕ) {m : Multiplexer}
    (h : Reachable env sr mv m) : m.WF := by
  induction h with
  | init => exact WF_new env sr mv
  | trigger hr ih =>
    refine WF_trigger _ _ ih ?_
    intro e' s hs
    rw [reachable_sample_map env sr mv hr] at hs
    rw [reachable_wave_table env sr mv hr, catalogTable_len]
    exact catalogMap_lt hs
  | audio hr ih => exact (audio_requested_spec _ _ ih).1

/-- C2: in every state reachable from `Multiplexer::new(sample_rate,
max_voices)` by `trigger` and `audio_requested` calls, the playing set and the
free stack partition the slot indices `{0, …, max_voices-1}`: their union is
the whole index range, they are disjoint, and the stack never holds an index
twice. -/
theorem pool_partition (env : AudioEnv) (sr : ℚ) (mv : ℕ) (m : Multiplexer)
    (h : Reachable env sr mv m) :
    m.playing ∪ m.available.toFinset = Finset.range mv
    ∧ Disjoint m.playing m.available.toFinset
    ∧ m.available.Nodup := by
  obtain ⟨hpart, hdisj, hnd, _, _⟩ := Reachable_WF env sr mv h
  rw [reachable_voices_length env sr mv h] at hpart
  exact ⟨hpart, hdisj, hnd⟩

/-- Witness for `pool_partition` at the freshly constructed state. -/
theorem pool_partition_witness :
    (Multiplexer.new ⟨fun _ => 0, fun _ => 0, 0, 0, 0, 0, 0, 0, 0⟩ 48000 3).playing
        ∪ (Multiplexer.new ⟨fun _ => 0, fun _ => 0, 0, 0, 0, 0, 0, 0, 0⟩ 48000
            3).available.toFinset = Finset.range 3
    ∧ Disjoint (Multiplexer.new ⟨fun _ => 0, fun _ => 0, 0, 0, 0, 0, 0, 0, 0⟩ 48000 3).playing
        (Multiplexer.new ⟨fun _ => 0, fun _ => 0, 0, 0, 0, 0, 0, 0, 0⟩ 48000
          3).available.toFinset
    ∧ (Multiplexer.new ⟨fun _ => 0, fun _ => 0, 0, 0, 0, 0, 0, 0, 0⟩ 48000 3).available.Nodup :=
  pool_partition ⟨fun _ => 0, fun _ => 0, 0, 0, 0, 0, 0, 0, 0⟩ 48000 3 _ Reachable.init

/-- C1: `audio_requested` on a well-formed state returns a buffer of exactly
the requested length in which frame `k` (for every channel) is the SUM over
the voices playing at call entry, taken in ascending slot order, of the
wavetable frame `wavetable[voice.signal][voice.position + k]` for the voices
with more than `k` frames remaining (the buffer is zeroed first, so silent
states yield zero frames); and every playing voice's position advances by
exactly `min (buffer length) (length - position)`. -/
theorem audio_requested_mixes (m : Multiplexer) (n : ℕ) (hwf : m.WF) :
    ((m.audio_requested n).2).length = n
    ∧ (∀ k, k < n → ((m.audio_requested n).2).getD k 0
        = m.playing.sum fun i => voiceContrib m k i)
    ∧ (∀ i ∈ m.playing,
        ((m.audio_requested n).1.voices.getD i Voice.dflt).position
          = (m.voices.getD i Voice.dflt).position
            + min n (m.voices.getD i Voice.dflt).remaining) := by
  obtain ⟨_, hlen, hsum, hvoices⟩ := audio_requested_spec m n hwf
  exact ⟨hlen, hsum, fun i hi => (hvoices i hi).1⟩

/-- Witness for `audio_requested_mixes`: a single playing voice over a
one-signal wavetable, pulled with a one-frame buffer. -/
theorem audio_requested_mixes_witness :
    ((Multiplexer.audio_requested
        ⟨1, [⟨1, [((1 : ℚ), (2 : ℚ)), ((3 : ℚ), (4 : ℚ))]⟩], fun _ => none,
          [⟨some 0, 2, 0⟩], {0}, []⟩ 1).2).length = 1
    ∧ (∀ k, k < 1 →
        ((Multiplexer.audio_requested
            ⟨1, [⟨1, [((1 : ℚ), (2 : ℚ)), ((3 : ℚ), (4 : ℚ))]⟩], fun _ => none,
              [⟨some 0, 2, 0⟩], {0}, []⟩ 1).2).getD k 0
          = Finset.sum ({0} : Finset ℕ) fun i =>
              voiceContrib
                ⟨1, [⟨1, [((1 : ℚ), (2 : ℚ)), ((3 : ℚ), (4 : ℚ))]⟩], fun _ => none,
                  [⟨some 0, 2, 0⟩], {0}, []⟩ k i)
    ∧ (∀ i ∈ ({0} : Finset ℕ),
        (((Multiplexer.audio_requested
            ⟨1, [⟨1, [((1 : ℚ), (2 : ℚ)), ((3 : ℚ), (4 : ℚ))]⟩], fun _ => none,
              [⟨some 0, 2, 0⟩], {0}, []⟩ 1).1).voices.getD i Voice.dflt).position
          = (([⟨some 0, 2, 0⟩] : List Voice).getD i Voice.dflt).position
            + min 1 (([⟨some 0, 2, 0⟩] : List Voice).getD i Voice.dflt).remaining) :=
  audio_requested_mixes
    ⟨1, [⟨1, [((1 : ℚ), (2 : ℚ)), ((3 : ℚ), (4 : ℚ))]⟩], fun _ => none,
      [⟨some 0, 2, 0⟩], {0}, []⟩ 1
    (by
      refine ⟨by decide, by decide, by decide, ?_, by decide⟩
      intro i hi
      have h0 : i = 0 := by
        have := Finset.mem_singleton.mp hi
        exact this
      subst h0
      exact ⟨rfl, by decide, rfl⟩)

theorem voiceContrib_zero_of_rem_zero (m : Multiplexer) (k i : ℕ)
    (h : (m.voices.getD i Voice.dflt).remaining = 0) : voiceContrib m k i = 0 := by
  rcases hs : (m.voices.getD i Voice.dflt).signal with _ | s
  · simp only [voiceContrib, hs]
  · simp only [voiceContrib, hs, h]
    rw [if_neg (by omega)]

/-- C4: a playing voice always keeps `position ≤ length`; an `audio_requested`
call advances it by `min (buffer length) (length - position)` and removes it —
clearing its signal reference and returning its slot to the free stack —
exactly on the first call in which the cumulative consumption reaches its
length (it stays playing, off the stack, iff the buffer falls short of its
remaining frames); in particular a zero-length voice is reclaimed by the very
next call and the output equals the mix of the remaining voices alone. -/
theorem voice_lifecycle :
    (∀ (env : AudioEnv) (sr : ℚ) (mv : ℕ) (m : Multiplexer), Reachable env sr mv m →
        ∀ i ∈ m.playing,
          (m.voices.getD i Voice.dflt).position ≤ (m.voices.getD i Voice.dflt).length)
    ∧ (∀ (m : Multiplexer) (n i : ℕ), m.WF → i ∈ m.playing →
        ((m.audio_requested n).1.voices.getD i Voice.dflt).position
            = (m.voices.getD i Voice.dflt).position
              + min n (m.voices.getD i Voice.dflt).remaining
        ∧ (i ∈ (m.audio_requested n).1.playing
            ↔ n < (m.voices.getD i Voice.dflt).remaining)
        ∧ ((m.voices.getD i Voice.dflt).remaining ≤ n →
            ((m.audio_requested n).1.voices.getD i Voice.dflt).signal = none
            ∧ i ∈ (m.audio_requested n).1.available)
        ∧ (n < (m.voices.getD i Voice.dflt).remaining →
            i ∉ (m.audio_requested n).1.available))
    ∧ (∀ (m : Multiplexer) (n i : ℕ), m.WF → i ∈ m.playing →
        (m.voices.getD i Voice.dflt).remaining = 0 →
        i ∉ (m.audio_requested n).1.playing
        ∧ i ∈ (m.audio_requested n).1.available
        ∧ ∀ k, k < n → ((m.audio_requested n).2).getD k 0
            = (m.playing.erase i).sum fun j => voiceContrib m k j) := by
  refine ⟨?_, ?_, ?_⟩
  · intro env sr mv m hr i hi
    obtain ⟨hpart, _, _, _, hpos⟩ := Reachable_WF env sr mv hr
    refine hpos i ?_
    have h := Finset.mem_union_left m.available.toFinset hi
    rw [hpart] at h
    exact Finset.mem_range.mp h
  · intro m n i hwf hi
    exact (audio_requested_spec m n hwf).2.2.2 i hi
  · intro m n i hwf hi hrem
    obtain ⟨_, _, hsum, hvoices⟩ := audio_requested_spec m n hwf
    obtain ⟨_, hmem, hfree, _⟩ := hvoices i hi
    refine ⟨?_, (hfree (by omega)).2, ?_⟩
    · rw [hmem]
      omega
    · intro k hk
      rw [hsum k hk]
      exact (Finset.sum_erase _ (voiceContrib_zero_of_rem_zero m k i hrem)).symm

/-- Witness for `voice_lifecycle`: the zero-length-voice clause at a concrete
one-voice state whose signal has no frames. -/
theorem voice_lifecycle_witness :
    (0 : ℕ) ∉ (Multiplexer.audio_requested
        ⟨1, [⟨1, []⟩], fun _ => none, [⟨some 0, 0, 0⟩], {0}, []⟩ 4).1.playing
    ∧ (0 : ℕ) ∈ (Multiplexer.audio_requested
        ⟨1, [⟨1, []⟩], fun _ => none, [⟨some 0, 0, 0⟩], {0}, []⟩ 4).1.available
    ∧ ∀ k, k < 4 → ((Multiplexer.audio_requested
          ⟨1, [⟨1, []⟩], fun _ => none, [⟨some 0, 0, 0⟩], {0}, []⟩ 4).2).getD k 0
        = (({0} : Finset ℕ).erase 0).sum fun j =>
            voiceContrib ⟨1, [⟨1, []⟩], fun _ => none, [⟨some 0, 0, 0⟩], {0}, []⟩ k j :=
  voice_lifecycle.2.2 ⟨1, [⟨1, []⟩], fun _ => none, [⟨some 0, 0, 0⟩], {0}, []⟩ 4 0
    (by
      refine ⟨by decide, by decide, by decide, ?_, by decide⟩
      intro i hi
      have h0 : i = 0 := Finset.mem_singleton.mp hi
      subst h0
      exact ⟨rfl, by decide, rfl⟩)
    (by decide) (by decide)

theorem trigger_none (m : Multiplexer) (e : SoundEffect) (h : m.sample_map e = none) :
    m.trigger e = m := by
  unfold Multiplexer.trigger
  rw [h]

theorem trigger_empty (m : Multiplexer) (e : SoundEffect) (h : m.available = []) :
    m.trigger e = m := by
  unfold Multiplexer.trigger Multiplexer.allocate_voice
  rcases hse : m.sample_map e with _ | s
  · simp only []
  · simp only [h]

theorem trigger_cons (m : Multiplexer) (e : SoundEffect) (s i : ℕ) (rest : List ℕ)
    (hsm : m.sample_map e = some s) (hav : m.available = i :: rest) :
    m.trigger e = { m with
      playing := insert i m.playing
      voices := m.voices.set i
        (Voice.new s ((m.wave_table.getD s Signal.empty).frames.length))
      available := rest } := by
  unfold Multiplexer.trigger Multiplexer.allocate_voice
  simp only [hsm, hav]

theorem trigger_iterate (env : AudioEnv) (sr : ℚ) (mv : ℕ) (e : SoundEffect) (s : ℕ)
    (hmap : catalogMap e = some s) :
    ∀ k, k ≤ mv →
      ((fun m' => Multiplexer.trigger m' e)^[k] (Multiplexer.new env sr mv)).available
          = (List.range mv).drop k
      ∧ ((fun m' => Multiplexer.trigger m' e)^[k] (Multiplexer.new env sr mv)).playing
          = Finset.range k
      ∧ ((fun m' => Multiplexer.trigger m' e)^[k] (Multiplexer.new env sr mv)).sample_map
          = catalogMap := by
  intro k
  induction k with
  | zero =>
    intro _
    refine ⟨?_, ?_, rfl⟩
    · rw [List.drop_zero]
      rfl
    · show (∅ : Finset ℕ) = Finset.range 0
      rw [Finset.range_zero]
  | succ k ih =>
    intro hk1
    obtain ⟨A, P, S⟩ := ih (Nat.le_of_succ_le hk1)
    set mk := (fun m' => Multiplexer.trigger m' e)^[k] (Multiplexer.new env sr mv) with hmk
    have hkmv : k < mv := hk1
    have hdropk : (List.range mv).drop k = k :: (List.range mv).drop (k + 1) := by
      rw [List.drop_eq_getElem_cons (by simpa using hkmv)]
      congr 1
      exact List.getElem_range _ _
    have hsm : mk.sample_map e = some s := by rw [S]; exact hmap
    have hav : mk.available = k :: (List.range mv).drop (k + 1) := by rw [A, hdropk]
    have htr := trigger_cons mk e s k ((List.range mv).drop (k + 1)) hsm hav
    have hit : (fun m' => Multiplexer.trigger m' e)^[k + 1] (Multiplexer.new env sr mv)
        = mk.trigger e := by
      rw [Function.iterate_succ_apply']
    refine ⟨?_, ?_, ?_⟩
    · rw [hit, htr]
    · rw [hit, htr]
      show insert k mk.playing = Finset.range (k + 1)
      rw [P, Finset.range_succ]
    · rw [hit, htr]
      exact S

/-- C3: `trigger` leaves the state unchanged when the effect is unmapped or
the free stack is empty; otherwise it pops exactly one slot from the free
stack, adds it to the playing set and installs the `Voice` `{signal_index,
length = wavetable[signal_index].length, position = 0}` there; hence with
`max_voices = N`, `N` consecutive triggers of a mapped effect leave exactly
`N` voices playing, and the `(N+1)`-th trigger changes nothing (no new voice,
no panic). -/
theorem trigger_spec :
    (∀ (m : Multiplexer) (e : SoundEffect), m.sample_map e = none → m.trigger e = m)
    ∧ (∀ (m : Multiplexer) (e : SoundEffect), m.available = [] → m.trigger e = m)
    ∧ (∀ (m : Multiplexer) (e : SoundEffect) (s i : ℕ) (rest : List ℕ),
        m.sample_map e = some s → m.available = i :: rest →
        m.trigger e = { m with
          playing := insert i m.playing
          voices := m.voices.set i
            (Voice.new s ((m.wave_table.getD s Signal.empty).frames.length))
          available := rest })
    ∧ (∀ (env : AudioEnv) (sr : ℚ) (mv : ℕ) (e : SoundEffect) (s : ℕ),
        catalogMap e = some s →
        ((fun m' => Multiplexer.trigger m' e)^[mv] (Multiplexer.new env sr mv)).playing
            = Finset.range mv
        ∧ ((fun m' => Multiplexer.trigger m' e)^[mv]
            (Multiplexer.new env sr mv)).playing.card = mv
        ∧ (fun m' => Multiplexer.trigger m' e)^[mv + 1] (Multiplexer.new env sr mv)
            = (fun m' => Multiplexer.trigger m' e)^[mv] (Multiplexer.new env sr mv)) := by
  refine ⟨trigger_none, trigger_empty, trigger_cons, ?_⟩
  intro env sr mv e s hmap
  obtain ⟨A, P, _⟩ := trigger_iterate env sr mv e s hmap mv le_rfl
  have hemp : ((fun m' => Multiplexer.trigger m' e)^[mv]
      (Multiplexer.new env sr mv)).available = [] := by
    rw [A]
    have h := List.drop_length (List.range mv)
    rwa [List.length_range] at h
  refine ⟨P, by rw [P]; exact Finset.card_range mv, ?_⟩
  rw [Function.iterate_succ_apply']
  exact trigger_empty _ e hemp

/-- Witness for `trigger_spec`: an unmapped trigger on a tiny state is the
identity, and on a fresh three-voice pool three `Startup` triggers fill the
pool while the fourth changes nothing. -/
theorem trigger_spec_witness :
    Multiplexer.trigger ⟨1, [], fun _ => none, [], ∅, []⟩ (SoundEffect.click 2)
        = ⟨1, [], fun _ => none, [], ∅, []⟩
    ∧ ((fun m' => Multiplexer.trigger m' SoundEffect.startup)^[3]
          (Multiplexer.new ⟨fun _ => 0, fun _ => 0, 0, 0, 0, 0, 0, 0, 0⟩ 48000 3)).playing
        = Finset.range 3
    ∧ (fun m' => Multiplexer.trigger m' SoundEffect.startup)^[4]
          (Multiplexer.new ⟨fun _ => 0, fun _ => 0, 0, 0, 0, 0, 0, 0, 0⟩ 48000 3)
        = (fun m' => Multiplexer.trigger m' SoundEffect.startup)^[3]
          (Multiplexer.new ⟨fun _ => 0, fun _ => 0, 0, 0, 0, 0, 0, 0, 0⟩ 48000 3) :=
  ⟨trigger_spec.1 _ _ rfl,
    (trigger_spec.2.2.2 ⟨fun _ => 0, fun _ => 0, 0, 0, 0, 0, 0, 0, 0⟩ 48000 3
      SoundEffect.startup 0 rfl).1,
    (trigger_spec.2.2.2 ⟨fun _ => 0, fun _ => 0, 0, 0, 0, 0, 0, 0, 0⟩ 48000 3
      SoundEffect.startup 0 rfl).2.2⟩

/-- C10: from a fresh pool, successful triggers allocate the slots in
ascending index order 0, 1, 2, … (after `k` triggers the free stack is
`[k, …, max_voices-1]` and slots `0..k-1` are playing); and because the free
stack is last-in-first-out, the slot freed most recently is always the next
one allocated. -/
theorem voice_allocation_order :
    (∀ (env : AudioEnv) (sr : ℚ) (mv : ℕ) (e : SoundEffect) (s : ℕ),
        catalogMap e = some s → ∀ k, k ≤ mv →
        ((fun m' => Multiplexer.trigger m' e)^[k] (Multiplexer.new env sr mv)).available
            = (List.range mv).drop k
        ∧ ((fun m' => Multiplexer.trigger m' e)^[k] (Multiplexer.new env sr mv)).playing
            = Finset.range k)
    ∧ (∀ (m : Multiplexer) (i : ℕ) (v : Voice),
        ((m.free_voice i).allocate_voice v).2 = some i) := by
  refine ⟨?_, ?_⟩
  · intro env sr mv e s hmap k hk
    obtain ⟨A, P, _⟩ := trigger_iterate env sr mv e s hmap k hk
    exact ⟨A, P⟩
  · intro m i v
    rfl

/-- Witness for `voice_allocation_order`: two triggers on a fresh three-voice
pool leave the free stack `[2]` and the playing set `{0, 1}`. -/
theorem voice_allocation_order_witness :
    ((fun m' => Multiplexer.trigger m' SoundEffect.startup)^[2]
        (Multiplexer.new ⟨fun _ => 0, fun _ => 0, 0, 0, 0, 0, 0, 0, 0⟩ 48000 3)).available
      = (List.range 3).drop 2
    ∧ ((fun m' => Multiplexer.trigger m' SoundEffect.startup)^[2]
        (Multiplexer.new ⟨fun _ => 0, fun _ => 0, 0, 0, 0, 0, 0, 0, 0⟩ 48000 3)).playing
      = Finset.range 2 :=
  voice_allocation_order.1 ⟨fun _ => 0, fun _ => 0, 0, 0, 0, 0, 0, 0, 0⟩ 48000 3
    SoundEffect.startup 0 rfl 2 (by omega)

end RustOids
